import Mathlib

/-!
# Verification of the SummaC scoring pipeline (`summac/model_summac.py`)

Shallow embedding of the core of `model_summac.py`: text chunking
(`split_sentences`, `split_2sents`, `split_paragraphs`, `split_text`),
the NLI "image" construction of `SummaCImager` (`build_chunk_dataset`,
`build_image`, `build_images`) with its in-memory cache and its on-disk
persistence (`save_cache` / `load_cache` / `get_cache_file`), the
zero-shot aggregation `SummaCZS.image2score`, and the histogram binning
`SummaCConv.compute_histogram`.

External collaborators are kept opaque, exactly as the code consumes them:
* the sentence tokenizer `nltk.tokenize.sent_tokenize` is an arbitrary
  function `Tok := String → List String`;
* the NLI predictor (tokenizer + model + softmax, lines 145-154) is an
  arbitrary per-pair function `Pred := String → String → Fin 3 → ℚ`
  returning the softmax probability vector for one (premise, hypothesis)
  pair.  Machine floats are idealised as rationals.

Mutable numpy arrays become lists of lists of `ℚ`; the in-place scatter
loops of `build_image` / `build_images` become explicit `foldl`s over the
batched datasets, and the python dict `self.cache` becomes an association
list updated with dict semantics.
-/

namespace SummaC

/-- One plane of an image: a numpy `N × M` float matrix as rows of rationals. -/
abbrev Mat := List (List ℚ)

/-- A 3-plane NLI image (`image[0] = entailment`, `image[1] = contradiction`,
`image[2] = neutral`), the value built by `SummaCImager.build_image`. -/
structure Image where
  ent : Mat
  con : Mat
  neu : Mat
deriving DecidableEq

/-- `np.zeros((N, M))`. -/
def zerosMat (n m : Nat) : Mat :=
  List.replicate n (List.replicate m 0)

/-- `np.zeros((3, N, M))`. -/
def zerosImage (n m : Nat) : Image :=
  ⟨zerosMat n m, zerosMat n m, zerosMat n m⟩

/-- The degenerate `np.zeros((3, 1, 1))` image returned for empty chunkings. -/
def zeroImage311 : Image := zerosImage 1 1

/-- Read one cell of a plane (in-bounds in every use below). -/
def getCell (m : Mat) (i j : Nat) : ℚ :=
  (m.getD i []).getD j 0

/-- Write one cell of a plane (numpy `m[i, j] = x`). -/
def setCell (m : Mat) (i j : Nat) (x : ℚ) : Mat :=
  m.set i ((m.getD i []).set j x)

/-- The sum of the three label planes at one cell. -/
def cellTripleSum (img : Image) (i j : Nat) : ℚ :=
  getCell img.ent i j + getCell img.con i j + getCell img.neu i j

/-- `image[:, :k, :]` — slice every plane to its first `k` rows. -/
def sliceImage (k : Nat) (img : Image) : Image :=
  ⟨img.ent.take k, img.con.take k, img.neu.take k⟩

/-- The python dict `self.cache : {(original, generated): image}` as an
association list in insertion order. -/
abbrev Cache := List ((String × String) × Image)

/-- Dict lookup `self.cache[key]` / `key in self.cache`. -/
def Cache.find? : Cache → String × String → Option Image
  | [], _ => none
  | (k, v) :: rest, key => if k = key then some v else Cache.find? rest key

/-- Dict assignment `self.cache[key] = v`: overwrite in place, else append. -/
def Cache.insert : Cache → String × String → Image → Cache
  | [], key, v => [(key, v)]
  | (k, w) :: rest, key, v =>
    if k = key then (key, v) :: rest else (k, w) :: Cache.insert rest key v

/-- The external sentence tokenizer `nltk.tokenize.sent_tokenize`. -/
abbrev Tok := String → List String

/-- The external NLI predictor: softmax class probabilities for one
(premise, hypothesis) pair (lines 145-154 of the source). -/
abbrev Pred := String → String → Fin 3 → ℚ

/-- The granularity tokens accepted by the constructor assertion. -/
inductive Gran where
  | document
  | paragraph
  | sentence
  | twoSents
  | mixed
deriving DecidableEq

/-- `" ".join(l)` on a python list of strings. -/
def joinSpace : List String → String
  | [] => ""
  | [s] => s
  | s :: rest => s ++ " " ++ joinSpace rest

/-- `SummaCImager.split_sentences`: tokenize then drop sentences of length
`≤ 10` characters. -/
def split_sentences (tok : Tok) (text : String) : List String :=
  (tok text).filter (fun sent => sent.length > 10)

/-- `SummaCImager.split_2sents`: tokenize, length-filter, then
`[" ".join(sentences[i:i+2]) for i in range(len(sentences))]`. -/
def split_2sents (tok : Tok) (text : String) : List String :=
  let sentences := (tok text).filter (fun sent => sent.length > 10)
  (List.range sentences.length).map (fun i => joinSpace ((sentences.drop i).take 2))

/-- `SummaCImager.split_paragraphs`: split on `"\n\n"` when it occurs,
else on `"\n"`; strip each piece; drop pieces of length `≤ 10`. -/
def split_paragraphs (text : String) : List String :=
  let paragraphs :=
    if (text.splitOn "\n\n").length > 1 then
      (text.splitOn "\n\n").map String.trim
    else
      (text.splitOn "\n").map String.trim
  paragraphs.filter (fun p => p.length > 10)

/-- `SummaCImager.split_text`, dispatching on the granularity token. -/
def split_text (tok : Tok) (granularity : Gran) (text : String) : List String :=
  match granularity with
  | .document => [text]
  | .paragraph => split_paragraphs text
  | .sentence => split_sentences tok text
  | .twoSents => split_2sents tok text
  | .mixed => split_sentences tok text ++ split_paragraphs text

/-- `list(set([0, 1, 2]) - set([ent_idx, con_idx]))[0]`. -/
def get_neutral_idx (e c : Fin 3) : Fin 3 :=
  (([0, 1, 2] : List (Fin 3)).filter (fun i => !(i == e || i == c))).headD 0

/-- The configuration-plus-state of one `SummaCImager` instance.  The
predictor and tokenizer are passed to the operations explicitly; the
remaining constructor state is the model's label indices, the parsed
granularity pair (`self.grans`), `use_cache`, `max_doc_sents`, and the
mutable `self.cache`.  `model_name`/`granularity` are kept as the raw
strings used by `get_cache_file`. -/
structure Imager where
  model_name : String
  granularity : String
  granDoc : Gran
  granGen : Gran
  entailment_idx : Fin 3
  contradiction_idx : Fin 3
  use_cache : Bool
  max_doc_sents : Nat
  cache : Cache

/-- `self.neutral_idx = get_neutral_idx(self.entailment_idx, self.contradiction_idx)`. -/
def Imager.neutral_idx (s : Imager) : Fin 3 :=
  get_neutral_idx s.entailment_idx s.contradiction_idx

/-- The document-side chunks: `self.split_text(original, gran_doc)[:self.max_doc_sents]`. -/
def Imager.docChunks (tok : Tok) (s : Imager) (original : String) : List String :=
  (split_text tok s.granDoc original).take s.max_doc_sents

/-- The summary-side chunks: `self.split_text(generated, gran_sum)`. -/
def Imager.genChunks (tok : Tok) (s : Imager) (generated : String) : List String :=
  split_text tok s.granGen generated

/-- One element of the chunk dataset
`{"premise": ..., "hypothesis": ..., "doc_i": i, "gen_i": j, "pair_idx": ...}`. -/
structure BEntry where
  premise : String
  hypothesis : String
  doc_i : Nat
  gen_i : Nat
  pair_idx : Nat
deriving DecidableEq

/-- The cross-product dataset of `build_chunk_dataset` for given chunk lists:
`for i in range(N_ori) for j in range(N_gen)` (outer `i`, inner `j`). -/
def chunkDataset (oc gc : List String) (pair_idx : Nat) : List BEntry :=
  (List.range oc.length).flatMap (fun i =>
    (List.range gc.length).map (fun j =>
      ⟨oc.getD i "", gc.getD j "", i, j, pair_idx⟩))

/-- `SummaCImager.build_chunk_dataset`: chunk both texts and build the
cross-product dataset, returning `(dataset, N_ori, N_gen)`. -/
def build_chunk_dataset (P : Pred) (tok : Tok) (s : Imager)
    (original generated : String) (pair_idx : Nat) :
    List BEntry × Nat × Nat :=
  let _ := P
  let oc := s.docChunks tok original
  let gc := s.genChunks tok generated
  (chunkDataset oc gc pair_idx, oc.length, gc.length)

/-- Modelled from the spec: `batcher` (imported from `utils_misc`, not under
`src/`) yields the list in consecutive batches of the fixed batch size
("batch them (fixed batch size) through the predictor").  A batch size of
`0` is treated as `1` to keep the function total; all call sites use
`20` or `128`. -/
def batcher (l : List α) (batch_size : Nat) : List (List α) :=
  match l with
  | [] => []
  | x :: xs =>
    (x :: xs).take (max batch_size 1) :: batcher ((x :: xs).drop (max batch_size 1)) batch_size
termination_by l.length
decreasing_by
  simp only [List.length_drop, List.length_cons]
  omega

/-- The body of the scatter loop (lines 156-159): write the predictor's
entailment / contradiction / neutral probabilities for one chunk pair into
the three planes at `(doc_i, gen_i)`. -/
def writeEntry (P : Pred) (eIdx cIdx nIdx : Fin 3) (img : Image) (b : BEntry) : Image :=
  ⟨setCell img.ent b.doc_i b.gen_i (P b.premise b.hypothesis eIdx),
   setCell img.con b.doc_i b.gen_i (P b.premise b.hypothesis cIdx),
   setCell img.neu b.doc_i b.gen_i (P b.premise b.hypothesis nIdx)⟩

/-- `SummaCImager.build_image`, returning the image together with the
imager state after the call (the cache is the only mutated state).
Mirrors the source: cache hit returns the hit sliced to `max_doc_sents`
rows; an empty dataset returns the `3×1×1` zero image *without* touching
the cache; otherwise the batched scatter loop fills `np.zeros((3, N, M))`
and the result is cached only when `use_cache` is set. -/
def build_image (P : Pred) (tok : Tok) (s : Imager) (original generated : String) :
    Image × Imager :=
  let cache_key := (original, generated)
  if s.use_cache ∧ (Cache.find? s.cache cache_key).isSome then
    (sliceImage s.max_doc_sents ((Cache.find? s.cache cache_key).getD zeroImage311), s)
  else
    let oc := s.docChunks tok original
    let gc := s.genChunks tok generated
    let dataset := chunkDataset oc gc 0
    if dataset.isEmpty then
      (zeroImage311, s)
    else
      let image := (batcher dataset 20).foldl
        (fun im batch => batch.foldl (writeEntry P s.entailment_idx s.contradiction_idx s.neutral_idx) im)
        (zerosImage oc.length gc.length)
      (image, if s.use_cache then { s with cache := Cache.insert s.cache cache_key image } else s)

/-- Calling `build_image` on each pair of a list in turn, threading the
imager state, and collecting the returned images in order. -/
def build_image_seq (P : Pred) (tok : Tok) (s : Imager) :
    List (String × String) → List Image × Imager
  | [] => ([], s)
  | p :: ps =>
    let r := build_image P tok s p.1 p.2
    let rest := build_image_seq P tok r.2 ps
    (r.1 :: rest.1, rest.2)

/-- The scatter step of `build_images` (lines 200-204): route the result to
`todo_images[b["pair_idx"]]` and write the cell there. -/
def scatterStep (P : Pred) (eIdx cIdx nIdx : Fin 3) (imgs : List Image) (b : BEntry) :
    List Image :=
  imgs.set b.pair_idx (writeEntry P eIdx cIdx nIdx (imgs.getD b.pair_idx zeroImage311) b)

/-- The pending pairs of `build_images` (lines 166-171): input pairs whose
key is not in the cache, in input order, duplicates kept. -/
def bTodo (s : Imager) (pairs : List (String × String)) : List (String × String) :=
  pairs.filter (fun p => (Cache.find? s.cache p).isNone)

/-- The per-pending-pair chunk datasets of `build_images` (line 176), each
tagged with its `pair_idx`. -/
def bDatasets (P : Pred) (tok : Tok) (s : Imager) (todo : List (String × String)) :
    List (List BEntry × Nat × Nat) :=
  todo.enum.map (fun pi => build_chunk_dataset P tok s pi.2.1 pi.2.2 pi.1)

/-- The initial `todo_images` of `build_images` (lines 177-181): a zero
image of the right shape per pending pair. -/
def bInit (datasets : List (List BEntry × Nat × Nat)) : List Image :=
  datasets.map (fun d => if d.1.isEmpty then zeroImage311 else zerosImage d.2.1 d.2.2)

/-- The batched global scatter loop of `build_images` (lines 186-204). -/
def bFinal (P : Pred) (e c n : Fin 3) (total : List BEntry) (bs : Nat)
    (init : List Image) : List Image :=
  (batcher total bs).foldl (fun imgs batch => batch.foldl (scatterStep P e c n) imgs) init

/-- `SummaCImager.build_images`: skip pairs already cached, flatten the
pending pairs' datasets into one stream tagged with `pair_idx`, scatter
the batched predictor results back into the per-pair images, write every
pending pair's image into the cache (unconditionally, lines 206-208), and
read the returned images back out of the cache in input order (line 210). -/
def build_images (P : Pred) (tok : Tok) (s : Imager)
    (originals generateds : List String) (batch_size : Nat) :
    List Image × Imager :=
  let pairs := originals.zip generateds
  let todo := bTodo s pairs
  let datasets := bDatasets P tok s todo
  let total_dataset := (datasets.map (fun d => d.1)).flatten
  let final_images := bFinal P s.entailment_idx s.contradiction_idx s.neutral_idx
    total_dataset batch_size (bInit datasets)
  let cache' := (todo.zip final_images).foldl
    (fun c pv => Cache.insert c pv.1 pv.2) s.cache
  let images := pairs.map (fun p => (Cache.find? cache' p).getD zeroImage311)
  (images, { s with cache := cache' })

/-- The image a cache-miss computation of `build_image` produces for one
pair: the direct cross-product of predictor outputs over the chunk lists
(the batched scatter loops are proved below to compute exactly this). -/
def directImage (P : Pred) (eIdx cIdx nIdx : Fin 3) (oc gc : List String) : Image :=
  ⟨oc.map (fun p => gc.map (fun h => P p h eIdx)),
   oc.map (fun p => gc.map (fun h => P p h cIdx)),
   oc.map (fun p => gc.map (fun h => P p h nIdx))⟩

/-- The image `build_image` computes for a pair absent from the cache:
the degenerate zero image when either chunk list is empty, else the
direct cross-product image. -/
def freshImage (P : Pred) (tok : Tok) (s : Imager) (original generated : String) : Image :=
  let oc := s.docChunks tok original
  let gc := s.genChunks tok generated
  if oc.length = 0 ∨ gc.length = 0 then zeroImage311
  else directImage P s.entailment_idx s.contradiction_idx s.neutral_idx oc gc

/-! ## The scatter loops compute the direct cross-product image -/

theorem batcher_flatten (bs : Nat) :
    ∀ (n : Nat) (l : List α), l.length ≤ n → (batcher l bs).flatten = l := by
  intro n
  induction n with
  | zero =>
    intro l hl
    cases l with
    | nil => simp [batcher]
    | cons x xs => simp at hl
  | succ n ih =>
    intro l hl
    cases l with
    | nil => simp [batcher]
    | cons x xs =>
      rw [batcher]
      simp only [List.flatten_cons]
      have hmax : 1 ≤ max bs 1 := le_max_right bs 1
      rw [ih ((x :: xs).drop (max bs 1))
        (by simp only [List.length_drop, List.length_cons]; simp at hl; omega),
        List.take_append_drop]

theorem batched_foldl (f : γ → α → γ) (init : γ) (l : List α) (bs : Nat) :
    (batcher l bs).foldl (fun acc batch => batch.foldl f acc) init = l.foldl f init := by
  conv_rhs => rw [← batcher_flatten bs l.length l le_rfl]
  rw [List.foldl_flatten]

theorem foldl_flatMap (g : α → List β) (f : γ → β → γ) (l : List α) (init : γ) :
    (l.flatMap g).foldl f init = l.foldl (fun acc a => (g a).foldl f acc) init := by
  induction l generalizing init with
  | nil => rfl
  | cons a l ih => rw [List.flatMap_cons, List.foldl_append, List.foldl_cons, ih]

theorem list_getD_set_self (l : List α) (i : Nat) (a d : α) (h : i < l.length) :
    (l.set i a).getD i d = a := by
  simp [List.getD_eq_getElem?_getD, List.getElem?_set, h]

theorem list_set_getD_self (l : List α) (i : Nat) (d : α) :
    l.set i (l.getD i d) = l := by
  induction l generalizing i with
  | nil => rfl
  | cons a l ih =>
    cases i with
    | zero => rfl
    | succ i => simpa [List.set, List.getD] using ih i

theorem list_set_append_len (l₁ l₂ : List α) (a : α) :
    (l₁ ++ l₂).set l₁.length a = l₁ ++ l₂.set 0 a := by
  rw [List.set_append]
  simp

theorem list_getD_append_len (l₁ l₂ : List α) (d : α) :
    (l₁ ++ l₂).getD l₁.length d = l₂.getD 0 d := by
  rw [List.getD_append_right l₁ l₂ d l₁.length le_rfl]
  simp

/-- Folding cell writes that all target row `k` factors through a fold on
row `k` alone. -/
theorem rowfold_factor (js : List Nat) (k : Nat) (f : Nat → ℚ) :
    ∀ (m : Mat), k < m.length →
      js.foldl (fun m' j => setCell m' k j (f j)) m
        = m.set k (js.foldl (fun r j => r.set j (f j)) (m.getD k [])) := by
  induction js with
  | nil => intro m _; exact (list_set_getD_self m k []).symm
  | cons j js ih =>
    intro m hk
    rw [List.foldl_cons, List.foldl_cons]
    rw [ih (setCell m k j (f j)) (by simpa [setCell] using hk)]
    unfold setCell
    rw [list_getD_set_self m k _ [] hk, List.set_set]

/-- Folding `set` over `range n` overwrites the first `n` entries of a row. -/
theorem rowset_fill (f : Nat → ℚ) (r : List ℚ) :
    ∀ (n : Nat), n ≤ r.length →
      (List.range n).foldl (fun r' j => r'.set j (f j)) r
        = (List.range n).map f ++ r.drop n := by
  intro n
  induction n with
  | zero => simp
  | succ n ih =>
    intro hn
    rw [List.range_succ, List.foldl_append, ih (by omega), List.foldl_cons, List.foldl_nil]
    have hlen : ((List.range n).map f).length = n := by simp
    have hset := list_set_append_len ((List.range n).map f) (r.drop n) (f n)
    rw [hlen] at hset
    rw [hset, List.drop_eq_getElem_cons (by omega : n < r.length), List.set_cons_zero,
      List.map_append]
    simp

/-- One plane step of the scatter-loop body (lines 156-159), for a single
label index. -/
def planeStep (P : Pred) (idx : Fin 3) (m : Mat) (b : BEntry) : Mat :=
  setCell m b.doc_i b.gen_i (P b.premise b.hypothesis idx)

/-- The scatter loop acts on the three planes independently. -/
theorem writeEntry_fold_planes (P : Pred) (e c n : Fin 3) (ds : List BEntry) :
    ∀ (img : Image),
      ds.foldl (writeEntry P e c n) img
        = ⟨ds.foldl (planeStep P e) img.ent, ds.foldl (planeStep P c) img.con,
           ds.foldl (planeStep P n) img.neu⟩ := by
  induction ds with
  | nil => intro img; rfl
  | cons b ds ih => intro img; exact ih (writeEntry P e c n img b)

/-- Filling `zerosMat` cell-by-cell over the row-major cross product of
indices produces the row-major matrix of values. -/
theorem plane_fill (v : Nat → Nat → ℚ) (N M : Nat) :
    (List.range N).foldl
        (fun m i => (List.range M).foldl (fun m' j => setCell m' i j (v i j)) m)
        (zerosMat N M)
      = (List.range N).map (fun i => (List.range M).map (v i)) := by
  have key : ∀ k, k ≤ N →
      (List.range k).foldl
          (fun m i => (List.range M).foldl (fun m' j => setCell m' i j (v i j)) m)
          (zerosMat N M)
        = (List.range k).map (fun i => (List.range M).map (v i))
            ++ (zerosMat N M).drop k := by
    intro k
    induction k with
    | zero => simp
    | succ k ih =>
      intro hk
      rw [List.range_succ, List.foldl_append, ih (by omega), List.foldl_cons, List.foldl_nil]
      set A := (List.range k).map (fun i => (List.range M).map (v i)) with hA
      have hlen : A.length = k := by simp [hA]
      have hmlen : (A ++ (zerosMat N M).drop k).length = N := by
        simp [hA, zerosMat]; omega
      rw [rowfold_factor _ k _ _ (by omega)]
      have hrow : (A ++ (zerosMat N M).drop k).getD k [] = List.replicate M 0 := by
        have hget := list_getD_append_len A ((zerosMat N M).drop k) ([] : List ℚ)
        rw [hlen] at hget
        rw [hget]
        simp only [zerosMat, List.drop_replicate]
        have h1 : N - k = (N - k - 1) + 1 := by omega
        rw [h1, List.replicate_succ]
        rfl
      rw [hrow, rowset_fill _ _ M (by simp)]
      simp only [List.drop_replicate, Nat.sub_self, List.replicate_zero, List.append_nil]
      have hset := list_set_append_len A ((zerosMat N M).drop k) ((List.range M).map (v k))
      rw [hlen] at hset
      rw [hset]
      have hBset : ((zerosMat N M).drop k).set 0 ((List.range M).map (v k))
          = (List.range M).map (v k) :: (zerosMat N M).drop (k + 1) := by
        simp only [zerosMat, List.drop_replicate]
        have h1 : N - k = (N - k - 1) + 1 := by omega
        have h2 : N - (k + 1) = N - k - 1 := by omega
        rw [h1, List.replicate_succ, List.set_cons_zero, h2]
      rw [hBset, List.map_append]
      simp [hA]
  have := key N le_rfl
  simpa [zerosMat] using this

theorem map_range_getD (l : List α) (f : α → β) (d : α) :
    (List.range l.length).map (fun i => f (l.getD i d)) = l.map f := by
  induction l with
  | nil => rfl
  | cons a l ih =>
    rw [List.length_cons, List.range_succ_eq_map, List.map_cons, List.map_map, List.map_cons]
    congr 1

/-- The per-plane scatter over the chunk dataset equals the direct map. -/
theorem chunkDataset_plane_foldl (P : Pred) (idx : Fin 3) (oc gc : List String)
    (pidx : Nat) :
    (chunkDataset oc gc pidx).foldl (planeStep P idx) (zerosMat oc.length gc.length)
      = oc.map (fun p => gc.map (fun h => P p h idx)) := by
  unfold chunkDataset
  rw [foldl_flatMap]
  have inner : ∀ (i : Nat) (m : Mat),
      ((List.range gc.length).map (fun j =>
          (⟨oc.getD i "", gc.getD j "", i, j, pidx⟩ : BEntry))).foldl (planeStep P idx) m
        = (List.range gc.length).foldl
            (fun m' j => setCell m' i j (P (oc.getD i "") (gc.getD j "") idx)) m := by
    intro i m
    rw [List.foldl_map]
    rfl
  calc (List.range oc.length).foldl
        (fun acc i => ((List.range gc.length).map (fun j =>
            (⟨oc.getD i "", gc.getD j "", i, j, pidx⟩ : BEntry))).foldl (planeStep P idx) acc)
        (zerosMat oc.length gc.length)
      = (List.range oc.length).foldl
          (fun acc i => (List.range gc.length).foldl
            (fun m' j => setCell m' i j (P (oc.getD i "") (gc.getD j "") idx)) acc)
          (zerosMat oc.length gc.length) := by
        congr 1
        funext acc i
        exact inner i acc
    _ = (List.range oc.length).map (fun i =>
          (List.range gc.length).map (fun j => P (oc.getD i "") (gc.getD j "") idx)) :=
        plane_fill _ _ _
    _ = oc.map (fun p => gc.map (fun h => P p h idx)) := by
        have : ∀ i, (List.range gc.length).map (fun j => P (oc.getD i "") (gc.getD j "") idx)
            = gc.map (fun h => P (oc.getD i "") h idx) := fun i =>
          map_range_getD gc (fun h => P (oc.getD i "") h idx) ""
        calc (List.range oc.length).map (fun i =>
              (List.range gc.length).map (fun j => P (oc.getD i "") (gc.getD j "") idx))
            = (List.range oc.length).map (fun i => gc.map (fun h => P (oc.getD i "") h idx)) := by
              simp only [this]
          _ = oc.map (fun p => gc.map (fun h => P p h idx)) :=
              map_range_getD oc (fun p => gc.map (fun h => P p h idx)) ""

/-- The batched scatter loop of `build_image` computes the direct image,
for any batch size and any `pair_idx` tag. -/
theorem scatter_direct (P : Pred) (e c n : Fin 3) (oc gc : List String)
    (pidx bs : Nat) :
    (batcher (chunkDataset oc gc pidx) bs).foldl
        (fun im batch => batch.foldl (writeEntry P e c n) im)
        (zerosImage oc.length gc.length)
      = directImage P e c n oc gc := by
  rw [batched_foldl, writeEntry_fold_planes]
  unfold zerosImage directImage
  simp only [chunkDataset_plane_foldl]

/-- The chunk dataset is empty exactly when either chunk list is. -/
theorem chunkDataset_eq_nil_iff (oc gc : List String) (pidx : Nat) :
    chunkDataset oc gc pidx = [] ↔ oc.length = 0 ∨ gc.length = 0 := by
  unfold chunkDataset
  rw [List.flatMap_eq_nil_iff]
  constructor
  · intro h
    by_cases hoc : oc.length = 0
    · exact Or.inl hoc
    · right
      have h0 : (0 : Nat) ∈ List.range oc.length := by
        simp [List.mem_range]; omega
      have := h 0 h0
      simpa using this
  · intro h x hx
    rcases h with h | h
    · simp [h] at hx
    · simp [h]

/-! ## The zero-shot scorer `SummaCZS.image2score` -/

/-- The reduction tokens accepted by the `SummaCZS` constructor assertions
for `op1` and `op2`. -/
inductive Op where
  | max
  | mean
  | min
deriving DecidableEq

/-- The `SummaCZS` aggregation configuration: `op1`, `op2`, `use_ent`,
`use_con`. -/
structure ZSConfig where
  op1 : Op
  op2 : Op
  use_ent : Bool
  use_con : Bool
deriving DecidableEq

/-- Column `j` of a plane, as read by the numpy `axis=0` reductions. -/
def colVals (m : Mat) (j : Nat) : List ℚ :=
  m.map (fun row => row.getD j 0)

/-- `np.max` of a nonempty vector (`0` only on the never-occurring empty
vector, where numpy raises). -/
def redMax : List ℚ → ℚ
  | [] => 0
  | x :: xs => xs.foldl max x

/-- `np.min` of a nonempty vector. -/
def redMin : List ℚ → ℚ
  | [] => 0
  | x :: xs => xs.foldl min x

/-- `np.mean`. -/
def redMean (l : List ℚ) : ℚ := l.sum / l.length

/-- The reduction selected by an op token. -/
def applyOp : Op → List ℚ → ℚ
  | .max => redMax
  | .mean => redMean
  | .min => redMin

/-- The number of columns of a plane (`image.shape[-1]` on the rectangular
images the pipeline builds). -/
def nCols (m : Mat) : Nat := (m.headD []).length

/-- `SummaCZS.image2score`, mirroring the source's control flow: the
`max`-reduced vectors are computed first and overwritten when `op1` is
`mean` or `min`; the per-column vectors are combined according to
`use_ent`/`use_con`; `np.mean` is the default final reduction, overridden
for `op2 = min`/`max`.  When both flags are false the source raises
`NameError` (`scores` unbound); that unreachable branch is modelled by the
junk value `[]`, excluded by the hypotheses of every theorem below. -/
def image2score (cfg : ZSConfig) (img : Image) : ℚ :=
  let M := nCols img.ent
  let entMax := (List.range M).map (fun j => redMax (colVals img.ent j))
  let coMax := (List.range M).map (fun j => redMax (colVals img.con j))
  let ent_scores :=
    if cfg.op1 = .mean then (List.range M).map (fun j => redMean (colVals img.ent j))
    else if cfg.op1 = .min then (List.range M).map (fun j => redMin (colVals img.ent j))
    else entMax
  let co_scores :=
    if cfg.op1 = .mean then (List.range M).map (fun j => redMean (colVals img.con j))
    else if cfg.op1 = .min then (List.range M).map (fun j => redMin (colVals img.con j))
    else coMax
  let scores :=
    if cfg.use_ent && cfg.use_con then List.zipWith (fun a b => a - b) ent_scores co_scores
    else if cfg.use_ent then ent_scores
    else if cfg.use_con then co_scores.map (fun x => 1 - x)
    else []
  if cfg.op2 = .min then redMin scores
  else if cfg.op2 = .max then redMax scores
  else redMean scores

/-- The specification's reading of `image_to_score` (§4.3 of the spec):
apply `op1` per generated-unit column to the entailment and contradiction
planes, combine according to the flags, then apply `op2` to the combined
vector. -/
def image2score_spec (cfg : ZSConfig) (img : Image) : ℚ :=
  let M := nCols img.ent
  let entv := (List.range M).map (fun j => applyOp cfg.op1 (colVals img.ent j))
  let conv := (List.range M).map (fun j => applyOp cfg.op1 (colVals img.con j))
  let combined :=
    if cfg.use_ent && cfg.use_con then List.zipWith (fun a b => a - b) entv conv
    else if cfg.use_ent then entv
    else if cfg.use_con then conv.map (fun x => 1 - x)
    else []
  applyOp cfg.op2 combined

/-! ## Characterizing `build_image` -/

theorem list_getD_set_ne (l : List α) (i j : Nat) (a d : α) (h : i ≠ j) :
    (l.set i a).getD j d = l.getD j d := by
  simp [List.getD_eq_getElem?_getD, List.getElem?_set, h]

theorem length_eq_zero_iff_nil (l : List α) : l.length = 0 ↔ l = [] :=
  List.length_eq_zero

/-- Unbatched corollary of `scatter_direct`. -/
theorem chunkDataset_foldl_image (P : Pred) (e c n : Fin 3) (oc gc : List String)
    (pidx : Nat) :
    (chunkDataset oc gc pidx).foldl (writeEntry P e c n)
        (zerosImage oc.length gc.length)
      = directImage P e c n oc gc := by
  rw [← batched_foldl (writeEntry P e c n) (zerosImage oc.length gc.length)
    (chunkDataset oc gc pidx) 1]
  exact scatter_direct P e c n oc gc pidx 1

/-- Cache-hit behaviour of `build_image`: return the cached image sliced
to `max_doc_sents` rows, without touching the cache. -/
theorem build_image_hit (P : Pred) (tok : Tok) (s : Imager) (o g : String)
    (cached : Image) (hu : s.use_cache = true)
    (hc : Cache.find? s.cache (o, g) = some cached) :
    build_image P tok s o g = (sliceImage s.max_doc_sents cached, s) := by
  unfold build_image
  rw [if_pos (by rw [hu, hc]; exact ⟨rfl, rfl⟩), hc]
  rfl

/-- Cache-miss behaviour of `build_image`: the returned image is the
direct cross-product image (degenerate zero image on empty chunkings),
and the cache gains the fresh image exactly when caching is enabled and
the pair is non-degenerate. -/
theorem build_image_miss (P : Pred) (tok : Tok) (s : Imager) (o g : String)
    (h : s.use_cache = false ∨ Cache.find? s.cache (o, g) = none) :
    build_image P tok s o g =
      (freshImage P tok s o g,
       if s.use_cache = true ∧ ¬(s.docChunks tok o = [] ∨ s.genChunks tok g = [])
       then { s with cache := Cache.insert s.cache (o, g) (freshImage P tok s o g) }
       else s) := by
  have hcond : ¬(s.use_cache = true ∧ (Cache.find? s.cache (o, g)).isSome = true) := by
    rcases h with hu | hc
    · intro hcon
      rw [hu] at hcon
      exact Bool.false_ne_true hcon.1
    · intro hcon
      rw [hc] at hcon
      exact Bool.false_ne_true hcon.2
  unfold build_image
  rw [if_neg hcond]
  simp only [scatter_direct]
  by_cases hdeg : s.docChunks tok o = [] ∨ s.genChunks tok g = []
  · have hde : (chunkDataset (s.docChunks tok o) (s.genChunks tok g) 0).isEmpty = true := by
      rw [List.isEmpty_iff, chunkDataset_eq_nil_iff]
      simpa [length_eq_zero_iff_nil] using hdeg
    rw [if_pos hde, if_neg (by simp [hdeg])]
    have hz : freshImage P tok s o g = zeroImage311 := by
      unfold freshImage
      rw [if_pos (by simpa [length_eq_zero_iff_nil] using hdeg)]
    rw [hz]
  · have hde : (chunkDataset (s.docChunks tok o) (s.genChunks tok g) 0).isEmpty = false := by
      rw [Bool.eq_false_iff]
      intro hcon
      rw [List.isEmpty_iff, chunkDataset_eq_nil_iff] at hcon
      exact hdeg (by simpa [length_eq_zero_iff_nil] using hcon)
    have hfresh : freshImage P tok s o g
        = directImage P s.entailment_idx s.contradiction_idx s.neutral_idx
            (s.docChunks tok o) (s.genChunks tok g) := by
      unfold freshImage
      rw [if_neg (by simpa [length_eq_zero_iff_nil] using hdeg)]
    rw [hde, hfresh]
    simp only [Bool.false_eq_true, if_false]
    rcases hcu : s.use_cache with _ | _
    · rw [if_neg (by simp [hcu]), if_neg (by simp [hcu])]
    · rw [if_pos (And.intro rfl hdeg), if_pos rfl]

/-! ## Cache dictionary lemmas -/

theorem Cache.find?_insert (c : Cache) (k k' : String × String) (v : Image) :
    Cache.find? (Cache.insert c k v) k' = if k = k' then some v else Cache.find? c k' := by
  induction c with
  | nil => rfl
  | cons e rest ih =>
    obtain ⟨k₀, v₀⟩ := e
    by_cases h₀ : k₀ = k
    · subst h₀
      rw [Cache.insert, if_pos rfl]
      by_cases h' : k₀ = k'
      · subst h'
        rw [Cache.find?, if_pos rfl, if_pos rfl]
      · rw [Cache.find?, if_neg h', if_neg h', Cache.find?, if_neg h']
    · rw [Cache.insert, if_neg h₀, Cache.find?, Cache.find?]
      by_cases h' : k₀ = k'
      · subst h'
        rw [if_pos rfl, if_pos rfl, if_neg (by intro hh; exact h₀ hh.symm)]
      · rw [if_neg h', if_neg h', ih]

/-- Folding dict inserts whose values are given by a function of the key:
membership decides the final lookup, later inserts winning (with equal
values, the winner is irrelevant). -/
theorem Cache.find?_foldl_insert (F : String × String → Image)
    (l : List ((String × String) × Image)) (hF : ∀ e ∈ l, e.2 = F e.1) :
    ∀ (c : Cache) (p : String × String),
      Cache.find? (l.foldl (fun c' e => Cache.insert c' e.1 e.2) c) p
        = if p ∈ l.map Prod.fst then some (F p) else Cache.find? c p := by
  induction l with
  | nil => intro c p; simp
  | cons e l ih =>
    intro c p
    rw [List.foldl_cons]
    rw [ih (fun x hx => hF x (List.mem_cons_of_mem e hx))]
    by_cases hmem : p ∈ l.map Prod.fst
    · rw [if_pos hmem, if_pos (by simp [hmem])]
    · rw [if_neg hmem, Cache.find?_insert]
      by_cases hep : e.1 = p
      · rw [if_pos hep, if_pos (by simp [← hep]
          )]
        rw [hF e (List.mem_cons_self e l), hep]
      · rw [if_neg hep, if_neg (by simp [hmem]; intro hcon; exact hep hcon.symm)]

/-! ## Characterizing `build_images` -/

theorem list_getD_map (f : α → β) (l : List α) (k : Nat) (d : α) (d' : β)
    (hk : k < l.length) :
    (l.map f).getD k d' = f (l.getD k d) := by
  rw [List.getD_eq_getElem _ _ (by simpa using hk), List.getD_eq_getElem _ _ hk,
    List.getElem_map]

theorem enum_getD (l : List α) (k : Nat) (d : α) (hk : k < l.length) :
    l.enum.getD k (0, d) = (k, l.getD k d) := by
  rw [List.getD_eq_getElem _ _ (by simpa [List.enum_length] using hk),
    List.getElem_enum, List.getD_eq_getElem _ _ hk]

theorem chunkDataset_pair_idx (oc gc : List String) (pidx : Nat) :
    ∀ b ∈ chunkDataset oc gc pidx, b.pair_idx = pidx := by
  intro b hb
  unfold chunkDataset at hb
  rw [List.mem_flatMap] at hb
  obtain ⟨i, _, hb⟩ := hb
  rw [List.mem_map] at hb
  obtain ⟨j, _, rfl⟩ := hb
  rfl

/-- Locality of the `build_images` scatter: the `k`-th accumulated image
only sees the entries routed to `pair_idx = k`. -/
theorem scatterFold_getD (P : Pred) (e c n : Fin 3) :
    ∀ (ds : List BEntry) (L : List Image) (k : Nat), k < L.length →
      (∀ b ∈ ds, b.pair_idx < L.length) →
      (ds.foldl (scatterStep P e c n) L).getD k zeroImage311
        = (ds.filter (fun b => b.pair_idx == k)).foldl (writeEntry P e c n)
            (L.getD k zeroImage311) := by
  intro ds
  induction ds with
  | nil => intro L k _ _; rfl
  | cons b ds ih =>
    intro L k hk hb
    rw [List.foldl_cons]
    have hblen : b.pair_idx < L.length := hb b (List.mem_cons_self b ds)
    have hlen' : (scatterStep P e c n L b).length = L.length := by
      simp [scatterStep]
    rw [ih (scatterStep P e c n L b) k (by rw [hlen']; exact hk)
      (fun b' hb' => by rw [hlen']; exact hb b' (List.mem_cons_of_mem _ hb'))]
    by_cases hpk : b.pair_idx = k
    · have hset : (scatterStep P e c n L b).getD k zeroImage311
          = writeEntry P e c n (L.getD k zeroImage311) b := by
        unfold scatterStep
        rw [hpk]
        exact list_getD_set_self L k _ _ (hpk ▸ hblen)
      rw [hset, List.filter_cons_of_pos (by simp [hpk]), List.foldl_cons]
    · have hset : (scatterStep P e c n L b).getD k zeroImage311
          = L.getD k zeroImage311 := by
        unfold scatterStep
        exact list_getD_set_ne L b.pair_idx k _ _ hpk
      rw [hset, List.filter_cons_of_neg (by simp [hpk])]

/-- Filtering a concatenation of per-pair datasets by `pair_idx` recovers
the corresponding dataset. -/
theorem flatten_filter_idx :
    ∀ (dss : List (List BEntry)) (base : Nat),
      (∀ i, ∀ b ∈ dss.getD i [], b.pair_idx = base + i) →
      ∀ k, dss.flatten.filter (fun b => b.pair_idx == base + k) = dss.getD k [] := by
  intro dss
  induction dss with
  | nil =>
    intro base _ k
    simp
  | cons d dss ih =>
    intro base hb k
    rw [List.flatten_cons, List.filter_append]
    cases k with
    | zero =>
      have hd : List.filter (fun b => b.pair_idx == base + 0) d = d := by
        rw [List.filter_eq_self]
        intro b hbmem
        simpa using hb 0 b hbmem
      have hrest : List.filter (fun b => b.pair_idx == base + 0) dss.flatten = [] := by
        rw [List.filter_eq_nil_iff]
        intro b hbmem
        rw [List.mem_flatten] at hbmem
        obtain ⟨l, hl, hbl⟩ := hbmem
        obtain ⟨i, hi, rfl⟩ := List.mem_iff_getElem.mp hl
        have hmem' : b ∈ (d :: dss).getD (i + 1) [] := by
          rw [List.getD_eq_getElem (d :: dss) [] (by simpa using Nat.succ_lt_succ hi)]
          simpa using hbl
        have := hb (i + 1) b hmem'
        simp only [beq_iff_eq]
        omega
      rw [hd, hrest, List.append_nil]
      rfl
    | succ j =>
      have hd : List.filter (fun b => b.pair_idx == base + (j + 1)) d = [] := by
        rw [List.filter_eq_nil_iff]
        intro b hbmem
        have := hb 0 b hbmem
        simp only [beq_iff_eq]
        omega
      have hih := ih (base + 1) (fun i b hbmem => by
        have := hb (i + 1) b (by simpa using hbmem)
        omega) j
      rw [hd, List.nil_append]
      have harith : (fun b : BEntry => b.pair_idx == base + (j + 1))
          = (fun b : BEntry => b.pair_idx == base + 1 + j) := by
        funext b
        have : base + (j + 1) = base + 1 + j := by omega
        rw [this]
      rw [harith, hih]
      rfl

theorem bDatasets_length (P : Pred) (tok : Tok) (s : Imager)
    (todo : List (String × String)) :
    (bDatasets P tok s todo).length = todo.length := by
  simp [bDatasets, List.enum_length]

theorem bDatasets_getD (P : Pred) (tok : Tok) (s : Imager)
    (todo : List (String × String)) (k : Nat) (hk : k < todo.length) :
    (bDatasets P tok s todo).getD k ([], 0, 0)
      = build_chunk_dataset P tok s (todo.getD k ("", "")).1 (todo.getD k ("", "")).2 k := by
  unfold bDatasets
  rw [list_getD_map _ _ k (0, ("", "")) _ (by simpa [List.enum_length] using hk),
    enum_getD _ _ _ hk]

/-- The `k`-th image after the global scatter of `build_images` is exactly
the fresh single-pair image of the `k`-th pending pair. -/
theorem bFinal_getD (P : Pred) (tok : Tok) (s : Imager)
    (todo : List (String × String)) (bs k : Nat) (hk : k < todo.length) :
    (bFinal P s.entailment_idx s.contradiction_idx s.neutral_idx
        ((bDatasets P tok s todo).map (fun d => d.1)).flatten bs
        (bInit (bDatasets P tok s todo))).getD k zeroImage311
      = freshImage P tok s (todo.getD k ("", "")).1 (todo.getD k ("", "")).2 := by
  unfold bFinal
  rw [batched_foldl]
  have hlens : (bInit (bDatasets P tok s todo)).length = todo.length := by
    simp [bInit, bDatasets, List.enum_length]
  have hmem_idx : ∀ b ∈ ((bDatasets P tok s todo).map (fun d => d.1)).flatten,
      b.pair_idx < todo.length := by
    intro b hbmem
    rw [List.mem_flatten] at hbmem
    obtain ⟨l, hl, hbl⟩ := hbmem
    obtain ⟨i, hi, rfl⟩ := List.mem_iff_getElem.mp hl
    have hilen : i < todo.length := by
      simpa [bDatasets, List.enum_length] using hi
    have hgetd : ((bDatasets P tok s todo).map (fun d => d.1)).getD i []
        = chunkDataset (s.docChunks tok (todo.getD i ("", "")).1)
            (s.genChunks tok (todo.getD i ("", "")).2) i := by
      rw [list_getD_map _ _ i ([], 0, 0) _ (by simpa [bDatasets_length] using hilen),
        bDatasets_getD P tok s todo i hilen]
      rfl
    have hbl' : b ∈ ((bDatasets P tok s todo).map (fun d => d.1)).getD i [] := by
      rw [List.getD_eq_getElem _ _ hi]
      exact hbl
    rw [hgetd] at hbl'
    rw [chunkDataset_pair_idx _ _ _ b hbl']
    exact hilen
  have hidx : ∀ i, ∀ b ∈ ((bDatasets P tok s todo).map (fun d => d.1)).getD i [],
      b.pair_idx = 0 + i := by
    intro i b hbmem
    by_cases hilen : i < todo.length
    · have hgetd : ((bDatasets P tok s todo).map (fun d => d.1)).getD i []
          = chunkDataset (s.docChunks tok (todo.getD i ("", "")).1)
              (s.genChunks tok (todo.getD i ("", "")).2) i := by
        rw [list_getD_map _ _ i ([], 0, 0) _ (by simpa [bDatasets_length] using hilen),
          bDatasets_getD P tok s todo i hilen]
        rfl
      rw [hgetd] at hbmem
      rw [chunkDataset_pair_idx _ _ _ b hbmem]
      omega
    · exfalso
      have : ((bDatasets P tok s todo).map (fun d => d.1)).length ≤ i := by
        simpa [bDatasets_length] using Nat.le_of_not_lt hilen
      rw [List.getD_eq_getElem?_getD, List.getElem?_eq_none this] at hbmem
      simp at hbmem
  rw [scatterFold_getD P _ _ _ _ (bInit (bDatasets P tok s todo)) k
    (by rw [hlens]; exact hk) (fun b hbmem => by rw [hlens]; exact hmem_idx b hbmem)]
  have hfilter := flatten_filter_idx ((bDatasets P tok s todo).map (fun d => d.1)) 0 hidx k
  have hpred : (fun b : BEntry => b.pair_idx == k) = (fun b : BEntry => b.pair_idx == 0 + k) := by
    funext b
    rw [Nat.zero_add]
  rw [hpred, hfilter]
  have hgetd : ((bDatasets P tok s todo).map (fun d => d.1)).getD k []
      = chunkDataset (s.docChunks tok (todo.getD k ("", "")).1)
          (s.genChunks tok (todo.getD k ("", "")).2) k := by
    rw [list_getD_map _ _ k ([], 0, 0) _ (by simpa [bDatasets_length] using hk),
      bDatasets_getD P tok s todo k hk]
    rfl
  have hinit : (bInit (bDatasets P tok s todo)).getD k zeroImage311
      = (if (chunkDataset (s.docChunks tok (todo.getD k ("", "")).1)
              (s.genChunks tok (todo.getD k ("", "")).2) k).isEmpty
         then zeroImage311
         else zerosImage (s.docChunks tok (todo.getD k ("", "")).1).length
                (s.genChunks tok (todo.getD k ("", "")).2).length) := by
    unfold bInit
    rw [list_getD_map _ _ k ([], 0, 0) _ (by simpa [bDatasets_length] using hk),
      bDatasets_getD P tok s todo k hk]
    rfl
  rw [hgetd, hinit]
  by_cases hdeg : (s.docChunks tok (todo.getD k ("", "")).1).length = 0
      ∨ (s.genChunks tok (todo.getD k ("", "")).2).length = 0
  · have hnil : chunkDataset (s.docChunks tok (todo.getD k ("", "")).1)
        (s.genChunks tok (todo.getD k ("", "")).2) k = [] :=
      (chunkDataset_eq_nil_iff _ _ _).mpr hdeg
    rw [hnil]
    unfold freshImage
    rw [if_pos hdeg]
    rfl
  · have hne : (chunkDataset (s.docChunks tok (todo.getD k ("", "")).1)
        (s.genChunks tok (todo.getD k ("", "")).2) k).isEmpty = false := by
      rw [Bool.eq_false_iff]
      intro hcon
      rw [List.isEmpty_iff, chunkDataset_eq_nil_iff] at hcon
      exact hdeg hcon
    rw [hne]
    simp only [Bool.false_eq_true, if_false]
    rw [chunkDataset_foldl_image]
    unfold freshImage
    rw [if_neg hdeg]

/-- The single-pair image `build_image` would return on a cache-missing
pair, read off the initial cache. -/
def cachedOrFresh (P : Pred) (tok : Tok) (s : Imager) (p : String × String) : Image :=
  match Cache.find? s.cache p with
  | some v => v
  | none => freshImage P tok s p.1 p.2

theorem build_images_cache_find? (P : Pred) (tok : Tok) (s : Imager)
    (originals generateds : List String) (bs : Nat) (p : String × String) :
    Cache.find? (build_images P tok s originals generateds bs).2.cache p
      = if p ∈ bTodo s (originals.zip generateds)
        then some (freshImage P tok s p.1 p.2)
        else Cache.find? s.cache p := by
  unfold build_images
  have hlenfin : (bFinal P s.entailment_idx s.contradiction_idx s.neutral_idx
      ((bDatasets P tok s (bTodo s (originals.zip generateds))).map (fun d => d.1)).flatten bs
      (bInit (bDatasets P tok s (bTodo s (originals.zip generateds))))).length
      = (bTodo s (originals.zip generateds)).length := by
    unfold bFinal
    rw [batched_foldl]
    have : ∀ (ds : List BEntry) (L : List Image),
        (ds.foldl (scatterStep P s.entailment_idx s.contradiction_idx s.neutral_idx) L).length
          = L.length := by
      intro ds
      induction ds with
      | nil => intro L; rfl
      | cons b ds ih =>
        intro L
        rw [List.foldl_cons, ih]
        simp [scatterStep]
    rw [this]
    simp [bInit, bDatasets, List.enum_length]
  have hF : ∀ e ∈ (bTodo s (originals.zip generateds)).zip
      (bFinal P s.entailment_idx s.contradiction_idx s.neutral_idx
        ((bDatasets P tok s (bTodo s (originals.zip generateds))).map (fun d => d.1)).flatten bs
        (bInit (bDatasets P tok s (bTodo s (originals.zip generateds))))),
      e.2 = freshImage P tok s e.1.1 e.1.2 := by
    intro e hemem
    obtain ⟨i, hi, rfl⟩ := List.mem_iff_getElem.mp hemem
    have hilen : i < (bTodo s (originals.zip generateds)).length := by
      rw [List.length_zip, hlenfin] at hi
      omega
    rw [List.getElem_zip]
    have := bFinal_getD P tok s (bTodo s (originals.zip generateds)) bs i hilen
    rw [List.getD_eq_getElem _ _ (by rw [hlenfin]; exact hilen)] at this
    rw [this, List.getD_eq_getElem _ _ hilen]
  rw [Cache.find?_foldl_insert (fun q => freshImage P tok s q.1 q.2) _ hF]
  rw [List.map_fst_zip _ _ (by rw [hlenfin])]

theorem build_images_fst (P : Pred) (tok : Tok) (s : Imager)
    (originals generateds : List String) (bs : Nat) :
    (build_images P tok s originals generateds bs).1
      = (originals.zip generateds).map (cachedOrFresh P tok s) := by
  have hfind := build_images_cache_find? P tok s originals generateds bs
  have heq : (build_images P tok s originals generateds bs).1
      = (originals.zip generateds).map (fun p =>
          (Cache.find? (build_images P tok s originals generateds bs).2.cache p).getD
            zeroImage311) := rfl
  rw [heq]
  apply List.map_congr_left
  intro p hp
  rw [hfind p]
  by_cases htodo : p ∈ bTodo s (originals.zip generateds)
  · rw [if_pos htodo]
    have hmiss : Cache.find? s.cache p = none := by
      have := (List.mem_filter.mp htodo).2
      simpa [Option.isNone_iff_eq_none] using this
    unfold cachedOrFresh
    rw [hmiss]
    rfl
  · rw [if_neg htodo]
    have hhit : ¬(Cache.find? s.cache p).isNone = true := by
      intro hcon
      exact htodo (List.mem_filter.mpr ⟨hp, by simpa using hcon⟩)
    unfold cachedOrFresh
    cases hopt : Cache.find? s.cache p with
    | none =>
      rw [hopt] at hhit
      simp at hhit
    | some v => rfl

/-! ## Characterizing sequential `build_image` calls -/

/-- All three planes have at most `mx` rows. -/
def boundedImage (mx : Nat) (img : Image) : Prop :=
  img.ent.length ≤ mx ∧ img.con.length ≤ mx ∧ img.neu.length ≤ mx

/-- Every image in the cache has at most `max_doc_sents` rows (true of
every image the imager computes itself; `load_cache` can break it). -/
def cacheBounded (s : Imager) : Prop :=
  ∀ e ∈ s.cache, boundedImage s.max_doc_sents e.2

instance (mx : Nat) (img : Image) : Decidable (boundedImage mx img) := by
  unfold boundedImage
  infer_instance

instance (s : Imager) : Decidable (cacheBounded s) := by
  unfold cacheBounded
  infer_instance

theorem sliceImage_of_bounded (k : Nat) (img : Image) (h : boundedImage k img) :
    sliceImage k img = img := by
  obtain ⟨h1, h2, h3⟩ := h
  unfold sliceImage
  rw [List.take_of_length_le h1, List.take_of_length_le h2, List.take_of_length_le h3]

theorem freshImage_bounded (P : Pred) (tok : Tok) (s : Imager) (o g : String)
    (hnd : ¬(s.docChunks tok o = [] ∨ s.genChunks tok g = [])) :
    boundedImage s.max_doc_sents (freshImage P tok s o g) := by
  unfold freshImage
  rw [if_neg (by simpa [length_eq_zero_iff_nil] using hnd)]
  refine ⟨?_, ?_, ?_⟩ <;>
    simp [directImage, Imager.docChunks, List.length_take]

theorem Cache.find?_some_mem (c : Cache) (p : String × String) (v : Image)
    (h : Cache.find? c p = some v) : (p, v) ∈ c := by
  induction c with
  | nil => exact absurd h (by rw [Cache.find?]; simp)
  | cons e rest ih =>
    obtain ⟨k, w⟩ := e
    rw [Cache.find?] at h
    by_cases hk : k = p
    · rw [if_pos hk] at h
      obtain rfl := Option.some_injective _ h
      rw [hk]
      exact List.mem_cons_self _ _
    · rw [if_neg hk] at h
      exact List.mem_cons_of_mem _ (ih h)

theorem cons_congr {α : Type _} {a b : α} {l₁ l₂ : List α} (h1 : a = b)
    (h2 : l₁ = l₂) : a :: l₁ = b :: l₂ := by
  rw [h1, h2]

/-- Sequential single-pair builds return the cached-or-fresh image per
pair, provided caching is enabled and every cached image is bounded
(so cache-hit slicing is the identity). -/
theorem build_image_seq_fst (P : Pred) (tok : Tok) (s₀ : Imager)
    (hu : s₀.use_cache = true) :
    ∀ (ps : List (String × String)) (c : Cache),
      (∀ p v, Cache.find? c p = some v →
        ((Cache.find? s₀.cache p = some v ∨
          (Cache.find? s₀.cache p = none ∧ v = freshImage P tok s₀ p.1 p.2))
         ∧ boundedImage s₀.max_doc_sents v)) →
      (∀ p, Cache.find? c p = none → Cache.find? s₀.cache p = none) →
      (build_image_seq P tok { s₀ with cache := c } ps).1
        = ps.map (cachedOrFresh P tok s₀) := by
  intro ps
  induction ps with
  | nil => intro c _ _; rfl
  | cons p ps ih =>
    intro c hI hmono
    rw [build_image_seq, List.map_cons]
    cases hfind : Cache.find? c p with
    | some v =>
      have hhit := build_image_hit P tok { s₀ with cache := c } p.1 p.2 v hu hfind
      rw [hhit]
      obtain ⟨hdisj, hbdd⟩ := hI p v hfind
      have hhead : sliceImage s₀.max_doc_sents v = cachedOrFresh P tok s₀ p := by
        rw [sliceImage_of_bounded _ _ hbdd]
        unfold cachedOrFresh
        rcases hdisj with h | ⟨h, rfl⟩ <;> rw [h]
      exact cons_congr hhead (ih c hI hmono)
    | none =>
      have hmiss := build_image_miss P tok { s₀ with cache := c } p.1 p.2 (Or.inr hfind)
      rw [hmiss]
      have hs0 : Cache.find? s₀.cache p = none := hmono p hfind
      have hhead : freshImage P tok { s₀ with cache := c } p.1 p.2
          = cachedOrFresh P tok s₀ p := by
        unfold cachedOrFresh
        rw [hs0]
        rfl
      by_cases hdeg : Imager.docChunks tok { s₀ with cache := c } p.1 = []
          ∨ Imager.genChunks tok { s₀ with cache := c } p.2 = []
      · rw [if_neg (by intro hcon; exact hcon.2 hdeg)]
        exact cons_congr hhead (ih c hI hmono)
      · rw [if_pos (And.intro hu hdeg)]
        exact cons_congr hhead
          (ih (Cache.insert c (p.1, p.2) (freshImage P tok s₀ p.1 p.2))
            (fun q v hq => by
              rw [Cache.find?_insert] at hq
              by_cases hpq : (p.1, p.2) = q
              · rw [if_pos hpq] at hq
                obtain rfl := Option.some_injective _ hq
                have hq' : q = p := by rw [← hpq]
                refine ⟨Or.inr ⟨by rw [hq']; exact hs0, by rw [hq']⟩, ?_⟩
                exact freshImage_bounded P tok s₀ p.1 p.2 hdeg
              · rw [if_neg hpq] at hq
                exact hI q v hq)
            (fun q hq => by
              rw [Cache.find?_insert] at hq
              by_cases hpq : (p.1, p.2) = q
              · rw [if_pos hpq] at hq
                exact absurd hq (by simp)
              · rw [if_neg hpq] at hq
                exact hmono q hq))

/-! ## Claim C1: `build_images` versus repeated `build_image` -/

/-- A concrete predictor for witnesses: the uniform distribution. -/
def unifPred : Pred := fun _ _ _ => (1 : ℚ) / 3

/-- A concrete tokenizer for witnesses: one sentence, the whole text. -/
def idTok : Tok := fun t => [t]

/-- An image with two rows per plane, used to exhibit the truncation
discrepancy between the two build paths. -/
def twoRowImage : Image := ⟨[[0], [0]], [[0], [0]], [[0], [0]]⟩

/-- An imager whose cache holds a two-row image while `max_doc_sents = 1`:
`build_image` slices the hit to one row, `build_images` returns it whole. -/
def truncImager : Imager :=
  { model_name := "mnli", granularity := "document", granDoc := .document,
    granGen := .document, entailment_idx := 2, contradiction_idx := 0,
    use_cache := true, max_doc_sents := 1,
    cache := [(("a", "b"), twoRowImage)] }

/-- C1, counterexample: for the initial cache state `truncImager` (a cached
image with more rows than `max_doc_sents`), `build_images` and repeated
`build_image` disagree on the very first pair, because only the single-pair
path slices cache hits to `max_doc_sents` rows. -/
theorem c1_counterexample :
    (build_images unifPred idTok truncImager ["a"] ["b"] 128).1
      ≠ (build_image_seq unifPred idTok truncImager [("a", "b")]).1 := by
  decide

/-- C1 (amended): with caching enabled and every initially cached image
having at most `max_doc_sents` rows (as is the case for every image the
imager computes itself), `build_images` returns, in input order,
bit-identical images to calling `build_image` on each pair in turn,
for every batch size and regardless of which pairs were already cached. -/
theorem c1_theorem (P : Pred) (tok : Tok) (s : Imager)
    (originals generateds : List String) (batch_size : Nat)
    (hu : s.use_cache = true) (hb : cacheBounded s) :
    (build_images P tok s originals generateds batch_size).1
      = (build_image_seq P tok s (originals.zip generateds)).1 := by
  rw [build_images_fst]
  have hseq := build_image_seq_fst P tok s hu (originals.zip generateds) s.cache
    (fun p v hpv => ⟨Or.inl hpv, hb (p, v) (Cache.find?_some_mem s.cache p v hpv)⟩)
    (fun p hp => hp)
  exact hseq.symm

/-- An imager with an empty cache used by several witnesses. -/
def freshImager : Imager :=
  { model_name := "mnli", granularity := "document", granDoc := .document,
    granGen := .document, entailment_idx := 2, contradiction_idx := 0,
    use_cache := true, max_doc_sents := 100, cache := [] }

/-- C1 witness: the amended equivalence evaluated at a concrete state. -/
theorem c1_witness :
    (build_images unifPred idTok freshImager ["aaa", "bbb"] ["ccc", "ddd"] 128).1
      = (build_image_seq unifPred idTok freshImager
          [("aaa", "ccc"), ("bbb", "ddd")]).1 :=
  c1_theorem unifPred idTok freshImager ["aaa", "bbb"] ["ccc", "ddd"] 128 rfl
    (by decide)

/-! ## Claim C2: each cell is a probability simplex -/

theorem neutral_complete (e c : Fin 3) (hne : e ≠ c) (q : Fin 3 → ℚ) :
    q e + q c + q (get_neutral_idx e c) = q 0 + q 1 + q 2 := by
  have h3 : ∀ i : Fin 3, i = 0 ∨ i = 1 ∨ i = 2 := by decide
  rcases h3 e with rfl | rfl | rfl <;> rcases h3 c with rfl | rfl | rfl <;>
    first
      | exact absurd rfl hne
      | (rw [show get_neutral_idx 0 1 = 2 from rfl]; try ring)
      | (rw [show get_neutral_idx 0 2 = 1 from rfl]; try ring)
      | (rw [show get_neutral_idx 1 0 = 2 from rfl]; try ring)
      | (rw [show get_neutral_idx 1 2 = 0 from rfl]; try ring)
      | (rw [show get_neutral_idx 2 0 = 1 from rfl]; try ring)
      | (rw [show get_neutral_idx 2 1 = 0 from rfl]; try ring)

theorem directImage_cellTripleSum (P : Pred) (e c n : Fin 3) (oc gc : List String)
    (i j : Nat) (hi : i < oc.length) (hj : j < gc.length) :
    cellTripleSum (directImage P e c n oc gc) i j
      = P (oc.getD i "") (gc.getD j "") e + P (oc.getD i "") (gc.getD j "") c
        + P (oc.getD i "") (gc.getD j "") n := by
  unfold cellTripleSum directImage getCell
  rw [list_getD_map _ oc i "" _ hi, list_getD_map _ oc i "" _ hi,
    list_getD_map _ oc i "" _ hi, list_getD_map _ gc j "" _ hj,
    list_getD_map _ gc j "" _ hj, list_getD_map _ gc j "" _ hj]

/-- C2: assuming the predictor returns a probability distribution per pair,
every non-degenerate image freshly produced by `build_image` (part 1) or by
`build_images` from an empty cache (part 2) has its three label planes
summing to `1` at every cell. -/
theorem c2_theorem (P : Pred) (tok : Tok) (s : Imager)
    (hsimplex : ∀ p h, (∀ i, 0 ≤ P p h i) ∧ P p h 0 + P p h 1 + P p h 2 = 1)
    (hne : s.entailment_idx ≠ s.contradiction_idx) :
    (∀ o g, (s.use_cache = false ∨ Cache.find? s.cache (o, g) = none) →
      s.docChunks tok o ≠ [] → s.genChunks tok g ≠ [] →
      ∀ i j, i < (s.docChunks tok o).length → j < (s.genChunks tok g).length →
        cellTripleSum (build_image P tok s o g).1 i j = 1)
    ∧ (∀ originals generateds bs k, s.cache = [] → k < (originals.zip generateds).length →
        s.docChunks tok ((originals.zip generateds).getD k ("", "")).1 ≠ [] →
        s.genChunks tok ((originals.zip generateds).getD k ("", "")).2 ≠ [] →
        ∀ i j,
          i < (s.docChunks tok ((originals.zip generateds).getD k ("", "")).1).length →
          j < (s.genChunks tok ((originals.zip generateds).getD k ("", "")).2).length →
          cellTripleSum
            ((build_images P tok s originals generateds bs).1.getD k zeroImage311) i j
            = 1) := by
  have hfreshcell : ∀ o g, s.docChunks tok o ≠ [] → s.genChunks tok g ≠ [] →
      ∀ i j, i < (s.docChunks tok o).length → j < (s.genChunks tok g).length →
        cellTripleSum (freshImage P tok s o g) i j = 1 := by
    intro o g hoc hgc i j hi hj
    have hfr : freshImage P tok s o g
        = directImage P s.entailment_idx s.contradiction_idx s.neutral_idx
            (s.docChunks tok o) (s.genChunks tok g) := by
      unfold freshImage
      rw [if_neg (by simpa [length_eq_zero_iff_nil] using not_or.mpr ⟨hoc, hgc⟩)]
    rw [hfr, directImage_cellTripleSum _ _ _ _ _ _ _ _ hi hj]
    unfold Imager.neutral_idx
    rw [neutral_complete _ _ hne]
    exact (hsimplex _ _).2
  constructor
  · intro o g hmiss hoc hgc i j hi hj
    rw [build_image_miss P tok s o g hmiss]
    exact hfreshcell o g hoc hgc i j hi hj
  · intro originals generateds bs k hcache hk hoc hgc i j hi hj
    rw [build_images_fst]
    rw [list_getD_map _ _ k ("", "") _ hk]
    have hcof : cachedOrFresh P tok s ((originals.zip generateds).getD k ("", ""))
        = freshImage P tok s ((originals.zip generateds).getD k ("", "")).1
            ((originals.zip generateds).getD k ("", "")).2 := by
      unfold cachedOrFresh
      rw [hcache]
      rfl
    rw [hcof]
    exact hfreshcell _ _ hoc hgc i j hi hj

/-- C2 witness: both parts evaluated at a concrete uniform predictor. -/
theorem c2_witness :
    cellTripleSum (build_image unifPred idTok freshImager "aaa" "bbb").1 0 0 = 1
    ∧ cellTripleSum
        ((build_images unifPred idTok freshImager ["aaa"] ["bbb"] 128).1.getD 0
          zeroImage311) 0 0 = 1 := by
  have h := c2_theorem unifPred idTok freshImager
    (fun p h => ⟨fun i => by norm_num [unifPred], by norm_num [unifPred]⟩)
    (by decide)
  exact ⟨h.1 "aaa" "bbb" (Or.inr rfl) (by decide) (by decide) 0 0 (by decide) (by decide),
    h.2 ["aaa"] ["bbb"] 128 0 rfl (by decide) (by decide) (by decide) 0 0 (by decide)
      (by decide)⟩

/-! ## Claim C3: degenerate chunkings give the zero image and score zero -/

/-- C3: when either side chunks to an empty unit list (and the pair is not
served from the cache), `build_image` returns the `3×1×1` zero image, and
under the zero-shot scorer with `use_ent` and `use_con` both set this image
scores exactly `0` for every `op1`/`op2`. -/
theorem c3_theorem (P : Pred) (tok : Tok) (s : Imager) (o g : String)
    (hmiss : s.use_cache = false ∨ Cache.find? s.cache (o, g) = none)
    (hdeg : s.docChunks tok o = [] ∨ s.genChunks tok g = []) :
    (build_image P tok s o g).1 = zeroImage311
    ∧ ∀ op1 op2 : Op,
        image2score ⟨op1, op2, true, true⟩ (build_image P tok s o g).1 = 0 := by
  have hz : (build_image P tok s o g).1 = zeroImage311 := by
    rw [build_image_miss P tok s o g hmiss]
    unfold freshImage
    rw [if_pos (by simpa [length_eq_zero_iff_nil] using hdeg)]
  refine ⟨hz, ?_⟩
  intro op1 op2
  rw [hz]
  cases op1 <;> cases op2 <;>
    norm_num [image2score, zeroImage311, zerosImage, zerosMat, nCols, colVals,
      redMax, redMin, redMean]

/-- An imager whose `max_doc_sents = 0` caps every document chunking to the
empty list, exercising the degenerate path. -/
def cappedImager : Imager :=
  { model_name := "mnli", granularity := "document", granDoc := .document,
    granGen := .document, entailment_idx := 2, contradiction_idx := 0,
    use_cache := true, max_doc_sents := 0, cache := [] }

/-- C3 witness: the degenerate case evaluated concretely. -/
theorem c3_witness :
    (build_image unifPred idTok cappedImager "x" "y").1 = zeroImage311
    ∧ image2score ⟨Op.max, Op.mean, true, true⟩
        (build_image unifPred idTok cappedImager "x" "y").1 = 0 := by
  have h := c3_theorem unifPred idTok cappedImager "x" "y" (Or.inr rfl)
    (Or.inl (by decide))
  exact ⟨h.1, h.2 Op.max Op.mean⟩

/-! ## Claim C4: the shape of `image2score` -/

/-- C4: with at least one of `use_ent`/`use_con` set, `image2score` equals
the specification's pipeline: per-column `op1` reduction of the entailment
and contradiction planes, flag-dependent combination, then `op2`. -/
theorem c4_theorem (cfg : ZSConfig) (img : Image)
    (hflag : cfg.use_ent = true ∨ cfg.use_con = true) :
    image2score cfg img = image2score_spec cfg img := by
  obtain ⟨op1, op2, ue, uc⟩ := cfg
  cases op1 <;> cases op2 <;> cases ue <;> cases uc <;> rfl

/-- C4 witness: the equality evaluated at a concrete configuration and
image. -/
theorem c4_witness :
    image2score ⟨Op.max, Op.mean, true, true⟩ ⟨[[1/2]], [[1/4]], [[1/4]]⟩
      = image2score_spec ⟨Op.max, Op.mean, true, true⟩ ⟨[[1/2]], [[1/4]], [[1/4]]⟩ :=
  c4_theorem ⟨Op.max, Op.mean, true, true⟩ ⟨[[1/2]], [[1/4]], [[1/4]]⟩ (Or.inl rfl)

/-! ## Claim C10: cache frame effects of the two build paths -/

/-- C10: (1) after `build_images` the cache holds an entry for every input
pair, whatever `use_cache` is; (2) the returned images are read back from
the post-call cache; (3) `build_image` leaves the state untouched when
`use_cache` is false. -/
theorem c10_theorem (P : Pred) (tok : Tok) :
    (∀ (s : Imager) (originals generateds : List String) (bs : Nat)
        (p : String × String), p ∈ originals.zip generateds →
        (Cache.find? (build_images P tok s originals generateds bs).2.cache p).isSome
          = true)
    ∧ (∀ (s : Imager) (originals generateds : List String) (bs : Nat),
        (build_images P tok s originals generateds bs).1
          = (originals.zip generateds).map (fun p =>
              (Cache.find? (build_images P tok s originals generateds bs).2.cache p).getD
                zeroImage311))
    ∧ (∀ (s : Imager) (o g : String), s.use_cache = false →
        (build_image P tok s o g).2 = s) := by
  refine ⟨?_, ?_, ?_⟩
  · intro s originals generateds bs p hp
    rw [build_images_cache_find?]
    by_cases ht : p ∈ bTodo s (originals.zip generateds)
    · rw [if_pos ht]
      rfl
    · rw [if_neg ht]
      cases hopt : Cache.find? s.cache p with
      | none =>
        exact absurd (List.mem_filter.mpr ⟨hp, by rw [hopt]; rfl⟩) ht
      | some v => rfl
  · intro s originals generateds bs
    rfl
  · intro s o g hu
    rw [build_image_miss P tok s o g (Or.inl hu)]
    exact if_neg (fun hcon => by rw [hu] at hcon; exact Bool.false_ne_true hcon.1)

/-- An imager with caching disabled, for the C10 witness. -/
def noCacheImager : Imager :=
  { model_name := "mnli", granularity := "document", granDoc := .document,
    granGen := .document, entailment_idx := 2, contradiction_idx := 0,
    use_cache := false, max_doc_sents := 100, cache := [] }

/-- C10 witness: parts 1 and 3 evaluated at concrete states. -/
theorem c10_witness :
    (Cache.find? (build_images unifPred idTok freshImager ["aaa"] ["bbb"] 128).2.cache
        ("aaa", "bbb")).isSome = true
    ∧ (build_image unifPred idTok noCacheImager "x" "y").2 = noCacheImager :=
  ⟨(c10_theorem unifPred idTok).1 freshImager ["aaa"] ["bbb"] 128 ("aaa", "bbb")
      (by decide),
   (c10_theorem unifPred idTok).2.2 noCacheImager "x" "y" rfl⟩

/-! ## Claim C7: permutation invariance of `image2score` -/

/-- Apply a row reindexing to a plane. -/
def permuteRows (σ : Nat → Nat) (m : Mat) : Mat :=
  (List.range m.length).map (fun i => m.getD (σ i) [])

/-- Apply a column reindexing to every row of a plane. -/
def permuteCols (τ : Nat → Nat) (m : Mat) : Mat :=
  m.map (fun row => (List.range row.length).map (fun j => row.getD (τ j) 0))

/-- Apply the same row and column reindexing to all three planes. -/
def permuteImage (σ τ : Nat → Nat) (img : Image) : Image :=
  ⟨permuteRows σ (permuteCols τ img.ent), permuteRows σ (permuteCols τ img.con),
   permuteRows σ (permuteCols τ img.neu)⟩

/-- `σ` permutes `{0, …, n-1}`. -/
def permOn (σ : Nat → Nat) (n : Nat) : Prop :=
  ((List.range n).map σ).Perm (List.range n)

instance (σ : Nat → Nat) (n : Nat) : Decidable (permOn σ n) := by
  unfold permOn
  exact List.decidablePerm _ _

/-- All three planes are `N × M` rectangles. -/
def Image.rect (img : Image) (N M : Nat) : Prop :=
  (img.ent.length = N ∧ ∀ r ∈ img.ent, r.length = M)
  ∧ (img.con.length = N ∧ ∀ r ∈ img.con, r.length = M)
  ∧ (img.neu.length = N ∧ ∀ r ∈ img.neu, r.length = M)

instance (img : Image) (N M : Nat) : Decidable (Image.rect img N M) := by
  unfold Image.rect
  infer_instance

theorem foldl_perm_invariant (f : ℚ → ℚ → ℚ)
    (hrc : ∀ a x y, f (f a x) y = f (f a y) x) :
    ∀ {l₁ l₂ : List ℚ}, l₁.Perm l₂ → ∀ a, l₁.foldl f a = l₂.foldl f a := by
  intro l₁ l₂ p
  induction p with
  | nil => intro a; rfl
  | cons x _ ih => intro a; rw [List.foldl_cons, List.foldl_cons, ih]
  | swap x y l => intro a; rw [List.foldl_cons, List.foldl_cons, List.foldl_cons,
      List.foldl_cons, hrc]
  | trans _ _ ih1 ih2 => intro a; rw [ih1, ih2]

theorem foldl_absorb (f : ℚ → ℚ → ℚ)
    (hrc : ∀ a x y, f (f a x) y = f (f a y) x)
    (habs : ∀ a x, f (f a x) x = f a x) :
    ∀ (l : List ℚ) (a b : ℚ), b ∈ l → l.foldl f (f a b) = l.foldl f a := by
  intro l
  induction l with
  | nil => intro a b hb; simp at hb
  | cons x t ih =>
    intro a b hb
    rw [List.foldl_cons, List.foldl_cons]
    rcases List.mem_cons.mp hb with rfl | hb'
    · rw [hrc, habs]
    · rw [hrc]
      exact ih (f a x) b hb'

theorem max_hrc : ∀ a x y : ℚ, max (max a x) y = max (max a y) x := by
  intro a x y
  rw [max_assoc, max_comm x y, ← max_assoc]

theorem max_habs : ∀ a x : ℚ, max (max a x) x = max a x := by
  intro a x
  rw [max_assoc, max_self]

theorem min_hrc : ∀ a x y : ℚ, min (min a x) y = min (min a y) x := by
  intro a x y
  rw [min_assoc, min_comm x y, ← min_assoc]

theorem min_habs : ∀ a x : ℚ, min (min a x) x = min a x := by
  intro a x
  rw [min_assoc, min_self]

theorem redMax_perm {l₁ l₂ : List ℚ} (p : l₁.Perm l₂) : redMax l₁ = redMax l₂ := by
  cases l₁ with
  | nil =>
    rw [List.Perm.eq_nil p.symm]
  | cons h₁ t₁ =>
    cases l₂ with
    | nil => exact absurd p.eq_nil (by simp)
    | cons h₂ t₂ =>
      show t₁.foldl max h₁ = t₂.foldl max h₂
      have e₁ : t₁.foldl max h₁ = (h₁ :: t₁).foldl max h₁ := by
        rw [List.foldl_cons, max_self]
      rw [e₁, foldl_perm_invariant max max_hrc p h₁, List.foldl_cons]
      have hmem : h₁ ∈ h₂ :: t₂ := p.subset (List.mem_cons_self h₁ t₁)
      rcases List.mem_cons.mp hmem with rfl | hmem'
      · rw [max_self]
      · rw [max_comm h₁ h₂]
        exact foldl_absorb max max_hrc max_habs t₂ h₂ h₁ hmem'

theorem redMin_perm {l₁ l₂ : List ℚ} (p : l₁.Perm l₂) : redMin l₁ = redMin l₂ := by
  cases l₁ with
  | nil =>
    rw [List.Perm.eq_nil p.symm]
  | cons h₁ t₁ =>
    cases l₂ with
    | nil => exact absurd p.eq_nil (by simp)
    | cons h₂ t₂ =>
      show t₁.foldl min h₁ = t₂.foldl min h₂
      have e₁ : t₁.foldl min h₁ = (h₁ :: t₁).foldl min h₁ := by
        rw [List.foldl_cons, min_self]
      rw [e₁, foldl_perm_invariant min min_hrc p h₁, List.foldl_cons]
      have hmem : h₁ ∈ h₂ :: t₂ := p.subset (List.mem_cons_self h₁ t₁)
      rcases List.mem_cons.mp hmem with rfl | hmem'
      · rw [min_self]
      · rw [min_comm h₁ h₂]
        exact foldl_absorb min min_hrc min_habs t₂ h₂ h₁ hmem'

theorem applyOp_perm (op : Op) {l₁ l₂ : List ℚ} (p : l₁.Perm l₂) :
    applyOp op l₁ = applyOp op l₂ := by
  cases op with
  | max => exact redMax_perm p
  | mean =>
    show redMean l₁ = redMean l₂
    unfold redMean
    rw [List.Perm.sum_eq p, List.Perm.length_eq p]
  | min => exact redMin_perm p

theorem colVals_eq_range (m : Mat) (j : Nat) :
    colVals m j = (List.range m.length).map (fun i => (m.getD i []).getD j 0) :=
  (map_range_getD m (fun r => r.getD j 0) []).symm

theorem colVals_permuteRows_perm (σ : Nat → Nat) (m : Mat) (j : Nat)
    (hσ : permOn σ m.length) :
    (colVals (permuteRows σ m) j).Perm (colVals m j) := by
  have h1 : colVals (permuteRows σ m) j
      = ((List.range m.length).map σ).map (fun i => (m.getD i []).getD j 0) := by
    unfold colVals permuteRows
    rw [List.map_map, List.map_map]
    rfl
  rw [h1, colVals_eq_range]
  exact hσ.map _

theorem colVals_permuteCols (τ : Nat → Nat) (m : Mat) (j M : Nat)
    (hrect : ∀ r ∈ m, r.length = M) (hj : j < M) :
    colVals (permuteCols τ m) j = colVals m (τ j) := by
  unfold colVals permuteCols
  rw [List.map_map]
  apply List.map_congr_left
  intro r hr
  show ((List.range r.length).map (fun j' => r.getD (τ j') 0)).getD j 0 = r.getD (τ j) 0
  rw [list_getD_map _ _ j 0 _ (by rw [List.length_range, hrect r hr]; exact hj)]
  congr 1
  rw [List.getD_eq_getElem _ _ (by rw [List.length_range, hrect r hr]; exact hj)]
  simp

theorem permOn_lt (σ : Nat → Nat) (n : Nat) (hσ : permOn σ n) :
    ∀ i, i < n → σ i < n := by
  intro i hi
  have hmem : σ i ∈ (List.range n).map σ := List.mem_map_of_mem σ (List.mem_range.mpr hi)
  have := hσ.subset hmem
  exact List.mem_range.mp this

theorem permuteCols_rect (τ : Nat → Nat) (m : Mat) (M : Nat)
    (hrect : ∀ r ∈ m, r.length = M) :
    ∀ r ∈ permuteCols τ m, r.length = M := by
  intro r hr
  unfold permuteCols at hr
  rw [List.mem_map] at hr
  obtain ⟨r₀, hr₀, rfl⟩ := hr
  rw [List.length_map, List.length_range]
  exact hrect r₀ hr₀

theorem nCols_permute (σ τ : Nat → Nat) (m : Mat) (N M : Nat)
    (hlen : m.length = N) (hrect : ∀ r ∈ m, r.length = M) (hσ : permOn σ N)
    (hN : 0 < N) :
    nCols (permuteRows σ (permuteCols τ m)) = M := by
  unfold nCols permuteRows
  have hlen' : (permuteCols τ m).length = N := by
    rw [← hlen]
    exact List.length_map _ _
  have hN' : 0 < (permuteCols τ m).length := by rw [hlen']; exact hN
  have hhead : ((List.range (permuteCols τ m).length).map
      (fun i => (permuteCols τ m).getD (σ i) [])).headD []
      = (permuteCols τ m).getD (σ 0) [] := by
    rw [hlen']
    cases hNn : N with
    | zero => omega
    | succ n =>
      rw [List.range_succ_eq_map, List.map_cons]
      rfl
  rw [hhead]
  have hσ0 : σ 0 < N := permOn_lt σ N hσ 0 hN
  have hmem : (permuteCols τ m).getD (σ 0) [] ∈ permuteCols τ m := by
    rw [List.getD_eq_getElem _ _ (by rw [hlen']; exact hσ0)]
    exact List.getElem_mem _
  exact permuteCols_rect τ m M hrect _ hmem

theorem zipWith_map_same (f : α → α → β) (g h : γ → α) (l : List γ) :
    List.zipWith f (l.map g) (l.map h) = l.map (fun x => f (g x) (h x)) := by
  induction l with
  | nil => rfl
  | cons x t ih => simp [ih]

theorem map_comp_perm (f : Nat → ℚ) (τ : Nat → Nat) (M : Nat) (hτ : permOn τ M) :
    ((List.range M).map (fun j => f (τ j))).Perm ((List.range M).map f) := by
  have h1 : (List.range M).map (fun j => f (τ j)) = ((List.range M).map τ).map f := by
    rw [List.map_map]
    rfl
  rw [h1]
  exact hτ.map f

/-- `image2score` agrees with the cleanly dispatched `image2score_spec` on
every input (the source's compute-`max`-then-overwrite control flow is
equivalent to direct dispatch). -/
theorem image2score_eq_spec (cfg : ZSConfig) (img : Image) :
    image2score cfg img = image2score_spec cfg img := by
  obtain ⟨op1, op2, ue, uc⟩ := cfg
  cases op1 <;> cases op2 <;> cases ue <;> cases uc <;> rfl

/-- Simultaneous row/column reindexing by permutations leaves
`image2score` unchanged, for every `op1`, `op2` and flag combination. -/
theorem image2score_permute (cfg : ZSConfig) (img : Image) (N M : Nat)
    (σ τ : Nat → Nat) (hrect : Image.rect img N M) (hσ : permOn σ N)
    (hτ : permOn τ M) :
    image2score cfg (permuteImage σ τ img) = image2score cfg img := by
  obtain ⟨⟨hel, her⟩, ⟨hcl, hcr⟩, ⟨hnl, hnr⟩⟩ := hrect
  rw [image2score_eq_spec, image2score_eq_spec]
  cases Nat.eq_zero_or_pos N with
  | inl hN0 =>
    have hee : img.ent = [] := List.length_eq_zero.mp (by rw [hel, hN0])
    have hcc : img.con = [] := List.length_eq_zero.mp (by rw [hcl, hN0])
    have hnn : img.neu = [] := List.length_eq_zero.mp (by rw [hnl, hN0])
    have hperm0 : permuteImage σ τ img = ⟨[], [], []⟩ := by
      unfold permuteImage permuteRows permuteCols
      rw [hee, hcc, hnn]
      rfl
    have horig0 : img = ⟨[], [], []⟩ := by
      obtain ⟨e, c', n'⟩ := img
      congr 1
    rw [hperm0, horig0]
  | inr hN =>
    have hMent : nCols (permuteImage σ τ img).ent = M :=
      nCols_permute σ τ img.ent N M hel her hσ hN
    have hMorig : nCols img.ent = M := by
      unfold nCols
      cases hE : img.ent with
      | nil => rw [hE] at hel; rw [← hel] at hN; simp at hN
      | cons r t =>
        show r.length = M
        exact her r (by rw [hE]; exact List.mem_cons_self r t)
    have hcol : ∀ (m : Mat), m.length = N → (∀ r ∈ m, r.length = M) →
        ∀ j, j < M → ∀ op,
        applyOp op (colVals (permuteRows σ (permuteCols τ m)) j)
          = applyOp op (colVals m (τ j)) := by
      intro m hml hmr j hj op
      have hperm : (colVals (permuteRows σ (permuteCols τ m)) j).Perm
          (colVals (permuteCols τ m) j) := by
        apply colVals_permuteRows_perm
        have : (permuteCols τ m).length = N := by rw [← hml]; exact List.length_map _ _
        rw [this]
        exact hσ
      rw [applyOp_perm op hperm,
        colVals_permuteCols τ m j M hmr hj]
    unfold image2score_spec
    rw [hMent, hMorig]
    dsimp only
    have hentv : (List.range M).map
        (fun j => applyOp cfg.op1 (colVals (permuteImage σ τ img).ent j))
        = (List.range M).map (fun j => applyOp cfg.op1 (colVals img.ent (τ j))) := by
      apply List.map_congr_left
      intro j hj
      exact hcol img.ent hel her j (List.mem_range.mp hj) cfg.op1
    have hconv : (List.range M).map
        (fun j => applyOp cfg.op1 (colVals (permuteImage σ τ img).con j))
        = (List.range M).map (fun j => applyOp cfg.op1 (colVals img.con (τ j))) := by
      apply List.map_congr_left
      intro j hj
      exact hcol img.con hcl hcr j (List.mem_range.mp hj) cfg.op1
    rw [hentv, hconv]
    by_cases hb : cfg.use_ent && cfg.use_con
    · rw [if_pos hb, if_pos hb]
      rw [zipWith_map_same, zipWith_map_same]
      exact applyOp_perm cfg.op2 (map_comp_perm
        (fun j => applyOp cfg.op1 (colVals img.ent j) - applyOp cfg.op1 (colVals img.con j))
        τ M hτ)
    · rw [if_neg hb, if_neg hb]
      by_cases he : cfg.use_ent = true
      · rw [if_pos he, if_pos he]
        exact applyOp_perm cfg.op2 (map_comp_perm
          (fun j => applyOp cfg.op1 (colVals img.ent j)) τ M hτ)
      · rw [if_neg he, if_neg he]
        by_cases hc : cfg.use_con = true
        · rw [if_pos hc, if_pos hc, List.map_map, List.map_map]
          exact applyOp_perm cfg.op2 (map_comp_perm
            (fun j => (fun x => 1 - x) (applyOp cfg.op1 (colVals img.con j))) τ M hτ)
        · rw [if_neg hc, if_neg hc]

/-- The full-invariance property of one scorer configuration. -/
def scoreInvariant (cfg : ZSConfig) : Prop :=
  ∀ (img : Image) (N M : Nat) (σ τ : Nat → Nat),
    Image.rect img N M → permOn σ N → permOn τ M →
    image2score cfg (permuteImage σ τ img) = image2score cfg img

/-- C7, counterexample to the claim as stated: `image2score` with
`op1 = op2 = max` is *also* invariant under simultaneous row/column
permutations, so invariance does not hold "only when op1 and op2 are both
mean". -/
theorem c7_counterexample :
    scoreInvariant ⟨Op.max, Op.max, true, true⟩ ∧ Op.max ≠ Op.mean :=
  ⟨fun img N M σ τ h1 h2 h3 =>
      image2score_permute ⟨Op.max, Op.max, true, true⟩ img N M σ τ h1 h2 h3,
    by decide⟩

/-- C7 (amended): `image2score` is invariant to simultaneous row and
column permutations of the image's planes for *every* `op1`, `op2` in
`{max, mean, min}` (and flag choice): `mean` because sum and length are
order-independent, `max`/`min` because they compute the true
maximum/minimum of the reduced values regardless of order. -/
theorem c7_theorem : ∀ cfg : ZSConfig, scoreInvariant cfg :=
  fun cfg img N M σ τ h1 h2 h3 => image2score_permute cfg img N M σ τ h1 h2 h3

/-- A concrete swap permutation on two elements. -/
def swap01 : Nat → Nat := fun i => 1 - i

/-- A concrete 2×2 image for the C7 witness. -/
def sampleImage : Image :=
  ⟨[[1/2, 1/3], [1/4, 1/5]], [[1/6, 1/7], [1/8, 1/9]], [[0, 1], [1, 0]]⟩

/-- C7 witness: invariance evaluated at a concrete image and swap. -/
theorem c7_witness :
    image2score ⟨Op.max, Op.max, true, true⟩ (permuteImage swap01 swap01 sampleImage)
      = image2score ⟨Op.max, Op.max, true, true⟩ sampleImage :=
  c7_theorem ⟨Op.max, Op.max, true, true⟩ sampleImage 2 2 swap01 swap01
    (by decide) (by decide) (by decide)

/-! ## Claim C6: histogram row segments count every original unit once -/

/-- The even bin edges of the `SummaCConv` constructor (lines 257-259):
`list(np.arange(0, 1, 1/n_bins)) + [1.0]`. -/
def evenBins (n : Nat) : List ℚ :=
  (List.range n).map (fun i => (i : ℚ) / n) ++ [1]

/-- `np.histogram(values, bins=edges, range=(0,1), density=False)` counts
(documented numpy semantics for explicit edges: half-open bins, last bin
closed; `range` is ignored when edges are given). -/
def histoCounts : List ℚ → List ℚ → List Nat
  | [], _ => []
  | [_], _ => []
  | [lo, hi], vs => [vs.countP (fun v => decide (lo ≤ v) && decide (v ≤ hi))]
  | lo :: hi :: e :: rest, vs =>
    vs.countP (fun v => decide (lo ≤ v) && decide (v < hi))
      :: histoCounts (hi :: e :: rest) vs

/-- The `SummaCConv` configuration used by `compute_histogram`: the bin
edges, the `nli_labels` selection string, `n_rows` and the stored
`full_size` (the padding row width). -/
structure ConvConfig where
  bins : List ℚ
  nli_labels : String
  n_rows : Nat
  full_size : Nat

/-- The depth planes selected by the `nli_labels` string (lines 299-301):
depth `d` is kept when `d % 3` picks a label present in the string. -/
def selectedDepths (labels : String) (ndepth : Nat) : List Nat :=
  (List.range ndepth).filter (fun d =>
    (d % 3 == 0 && labels.data.contains 'e') || (d % 3 == 1 && labels.data.contains 'c')
      || (d % 3 == 2 && labels.data.contains 'n'))

/-- The per-(model, label) histogram segments of one histogram row
(the `histos` list of lines 298-303 for one `i_gen`). -/
def histRow (cfg : ConvConfig) (image : List Mat) (j : Nat) : List (List Nat) :=
  (selectedDepths cfg.nli_labels image.length).map (fun d =>
    histoCounts cfg.bins (colVals (image.getD d []) j))

/-- `image.shape[2]`, the number of generated units of a stacked image. -/
def nGenOf (image : List Mat) : Nat := ((image.headD []).headD []).length

/-- `SummaCConv.compute_histogram` on a stacked image: one concatenated
histogram row per generated unit, zero-padded / truncated to `n_rows`
rows (lines 296-311). -/
def compute_histogram (cfg : ConvConfig) (image : List Mat) : List (List ℚ) :=
  let rows := (List.range (nGenOf image)).map (fun j =>
    ((histRow cfg image j).flatten).map (fun c => (c : ℚ)))
  (rows ++ List.replicate (cfg.n_rows - nGenOf image)
      (List.replicate cfg.full_size 0)).take cfg.n_rows

theorem histoCounts_nil_sum (edges : List ℚ) : (histoCounts edges []).sum = 0 := by
  induction edges with
  | nil => rfl
  | cons lo rest ih =>
    cases rest with
    | nil => rfl
    | cons hi rest2 =>
      cases rest2 with
      | nil => simp [histoCounts]
      | cons e rest3 =>
        simp only [histoCounts, List.countP_nil, List.sum_cons]
        simpa using ih

theorem histoCounts_sum_cons (edges : List ℚ) (v : ℚ) (vs : List ℚ) :
    (histoCounts edges (v :: vs)).sum
      = (histoCounts edges [v]).sum + (histoCounts edges vs).sum := by
  induction edges with
  | nil => rfl
  | cons lo rest ih =>
    cases rest with
    | nil => rfl
    | cons hi rest2 =>
      cases rest2 with
      | nil =>
        simp only [histoCounts, List.countP_cons, List.countP_nil, List.sum_cons,
          List.sum_nil]
        omega
      | cons e rest3 =>
        simp only [histoCounts, List.countP_cons, List.countP_nil, List.sum_cons]
        rw [ih]
        omega

theorem histoCounts_sum_zero_of_lt :
    ∀ (rest : List ℚ) (lo v : ℚ), (lo :: rest).Chain' (· ≤ ·) → v < lo →
      (histoCounts (lo :: rest) [v]).sum = 0 := by
  intro rest
  induction rest with
  | nil => intro lo v _ _; rfl
  | cons hi rest2 ih =>
    intro lo v hchain hv
    have hlohi : lo ≤ hi := (List.chain'_cons.mp hchain).1
    have hchain2 : (hi :: rest2).Chain' (· ≤ ·) := (List.chain'_cons.mp hchain).2
    cases rest2 with
    | nil =>
      simp [histoCounts, List.countP_cons, not_le.mpr hv]
    | cons e rest3 =>
      simp only [histoCounts, List.countP_cons, List.countP_nil, List.sum_cons]
      rw [ih hi v hchain2 (lt_of_lt_of_le hv hlohi)]
      simp [not_le.mpr hv]

theorem histoCounts_single_sum :
    ∀ (rest : List ℚ) (lo v : ℚ) (hchain : (lo :: rest).Chain' (· ≤ ·))
      (hne : rest ≠ []) (hlo : lo ≤ v)
      (hhi : v ≤ (lo :: rest).getLast (by simp)),
      (histoCounts (lo :: rest) [v]).sum = 1 := by
  intro rest
  induction rest with
  | nil => intro lo v _ hne _ _; exact absurd rfl hne
  | cons hi rest2 ih =>
    intro lo v hchain _ hlo hhi
    have hchain2 : (hi :: rest2).Chain' (· ≤ ·) := (List.chain'_cons.mp hchain).2
    cases rest2 with
    | nil =>
      have hvhi : v ≤ hi := by
        simpa [List.getLast] using hhi
      simp [histoCounts, List.countP_cons, hlo, hvhi]
    | cons e rest3 =>
      have hlast : v ≤ (hi :: e :: rest3).getLast (by simp) := by
        rw [← List.getLast_cons (l := hi :: e :: rest3) (by simp)]
        exact hhi
      by_cases hv : v < hi
      · simp only [histoCounts, List.countP_cons, List.countP_nil, List.sum_cons]
        rw [histoCounts_sum_zero_of_lt (e :: rest3) hi v hchain2 hv]
        simp [hlo, hv]
      · simp only [histoCounts, List.countP_cons, List.countP_nil, List.sum_cons]
        rw [ih hi v hchain2 (by simp) (le_of_not_lt hv) hlast]
        simp [not_lt.mp hv, hv]

theorem histoCounts_sum (edges : List ℚ) (hchain : edges.Chain' (· ≤ ·))
    (hlen : 2 ≤ edges.length) :
    ∀ (vs : List ℚ),
      (∀ v ∈ vs, edges.getD 0 0 ≤ v ∧ v ≤ edges.getLast?.getD 0) →
      (histoCounts edges vs).sum = vs.length := by
  intro vs
  induction vs with
  | nil => intro _; exact histoCounts_nil_sum edges
  | cons v vs ih =>
    intro hv
    rw [histoCounts_sum_cons, ih (fun w hw => hv w (List.mem_cons_of_mem _ hw))]
    obtain ⟨h1, h2⟩ := hv v (List.mem_cons_self v vs)
    cases edges with
    | nil => simp at hlen
    | cons lo rest =>
      have hne : rest ≠ [] := by
        intro hcon
        rw [hcon] at hlen
        simp at hlen
      have hlast : v ≤ (lo :: rest).getLast (by simp) := by
        rw [List.getLast?_eq_getLast (lo :: rest) (by simp)] at h2
        simpa using h2
      rw [histoCounts_single_sum rest lo v hchain hne (by simpa using h1) hlast]
      simp [Nat.add_comm]

/-- C6: for every stacked rectangular `N × M` image with `N ≥ 1` and values
in `[0, 1]`, and sorted bin edges spanning `[0, 1]`, every row of the
histogram matrix that corresponds to a real generated unit is the
concatenation of its per-(model, label) segments, and each segment sums
to `N`. -/
theorem c6_theorem (cfg : ConvConfig) (image : List Mat) (N M : Nat)
    (hrect : ∀ m ∈ image, m.length = N ∧ ∀ r ∈ m, r.length = M)
    (hvals : ∀ m ∈ image, ∀ r ∈ m, ∀ x ∈ r, 0 ≤ x ∧ x ≤ 1)
    (hchain : cfg.bins.Chain' (· ≤ ·))
    (hhead : cfg.bins.getD 0 0 = 0) (hlast : cfg.bins.getLast?.getD 0 = 1)
    (hblen : 2 ≤ cfg.bins.length) (hN : 0 < N)
    (j : Nat) (hj : j < nGenOf image) (hjrow : j < cfg.n_rows) :
    (compute_histogram cfg image).getD j []
      = ((histRow cfg image j).flatten).map (fun c => (c : ℚ))
    ∧ ∀ seg ∈ histRow cfg image j, seg.sum = N := by
  constructor
  · unfold compute_histogram
    rw [List.getD_eq_getElem?_getD, List.getElem?_take, if_pos hjrow]
    have hjlen : j < ((List.range (nGenOf image)).map (fun j' =>
        ((histRow cfg image j').flatten).map (fun c => (c : ℚ)))
          : List (List ℚ)).length := by
      simpa using hj
    rw [List.getElem?_append, if_pos hjlen, ← List.getD_eq_getElem?_getD,
      list_getD_map _ _ j 0 _ (by simpa using hj)]
    congr 2
    rw [List.getD_eq_getElem _ _ (by simpa using hj)]
    simp
  · intro seg hseg
    unfold histRow at hseg
    rw [List.mem_map] at hseg
    obtain ⟨d, hd, rfl⟩ := hseg
    have hdlen : d < image.length := by
      have := List.mem_filter.mp hd
      exact List.mem_range.mp this.1
    have hmem : image.getD d [] ∈ image := by
      rw [List.getD_eq_getElem _ _ hdlen]
      exact List.getElem_mem _
    obtain ⟨hmN, hmr⟩ := hrect _ hmem
    have hcollen : (colVals (image.getD d []) j).length = N := by
      unfold colVals
      rw [List.length_map, hmN]
    have hjM : j < M := by
      have himgne : image ≠ [] := by
        intro hcon
        rw [hcon] at hj
        simp [nGenOf] at hj
      obtain ⟨m₀, rest, rfl⟩ := List.exists_cons_of_ne_nil himgne
      have hm₀ : m₀ ∈ m₀ :: rest := List.mem_cons_self m₀ rest
      obtain ⟨hm₀N, hm₀r⟩ := hrect m₀ hm₀
      have hm₀ne : m₀ ≠ [] := by
        intro hcon
        rw [hcon] at hm₀N
        simp at hm₀N
        omega
      obtain ⟨r₀, rrest, rfl⟩ := List.exists_cons_of_ne_nil hm₀ne
      have : nGenOf ((r₀ :: rrest) :: rest) = r₀.length := rfl
      rw [this] at hj
      rw [← hm₀r r₀ (List.mem_cons_self r₀ rrest)]
      exact hj
    rw [← hcollen]
    apply histoCounts_sum cfg.bins hchain hblen
    intro v hvmem
    unfold colVals at hvmem
    rw [List.mem_map] at hvmem
    obtain ⟨r, hr, rfl⟩ := hvmem
    have hrd : r.getD j 0 ∈ r := by
      rw [List.getD_eq_getElem _ _ (by rw [hmr r hr]; exact hjM)]
      exact List.getElem_mem _
    obtain ⟨hv0, hv1⟩ := hvals _ hmem r hr _ hrd
    rw [hhead, hlast]
    exact ⟨hv0, hv1⟩

/-- A concrete configuration and stacked image for the C6 witness. -/
def cfg6 : ConvConfig := ⟨evenBins 2, "ecn", 10, 6⟩

def img6 : List Mat := [[[1]], [[0]], [[0]]]

/-- C6 witness: the histogram-row shape and a concrete segment sum. -/
theorem c6_witness :
    (compute_histogram cfg6 img6).getD 0 []
      = ((histRow cfg6 img6 0).flatten).map (fun c => (c : ℚ))
    ∧ ((histRow cfg6 img6 0).getD 0 []).sum = 1 := by
  have h := c6_theorem cfg6 img6 1 1
    (by decide)
    (by decide)
    (by
      show (evenBins 2).Chain' (· ≤ ·)
      have : evenBins 2 = [0 / 2, 1 / 2, 1] := by
        norm_num [evenBins, List.range_succ]
      rw [this]
      rw [List.chain'_cons, List.chain'_cons]
      norm_num)
    (by
      show (evenBins 2).getD 0 0 = 0
      have : evenBins 2 = [0 / 2, 1 / 2, 1] := by
        norm_num [evenBins, List.range_succ]
      rw [this]
      norm_num)
    (by
      show (evenBins 2).getLast?.getD 0 = 1
      have : evenBins 2 = [0 / 2, 1 / 2, 1] := by
        norm_num [evenBins, List.range_succ]
      rw [this]
      rfl)
    (by
      show 2 ≤ (evenBins 2).length
      have : evenBins 2 = [0 / 2, 1 / 2, 1] := by
        norm_num [evenBins, List.range_succ]
      rw [this]
      norm_num)
    (by norm_num) 0 (by decide) (by norm_num [cfg6])
  refine ⟨h.1, ?_⟩
  have hlen : 0 < (histRow cfg6 img6 0).length := by
    show 0 < ((selectedDepths cfg6.nli_labels img6.length).map _).length
    rw [List.length_map]
    decide
  have hmem : (histRow cfg6 img6 0).getD 0 [] ∈ histRow cfg6 img6 0 := by
    rw [List.getD_eq_getElem _ _ hlen]
    exact List.getElem_mem _
  exact h.2 _ hmem

/-! ## Claim C5: cache persistence round trip -/

/-- The characters of the cache-key separator `"[///]"`. -/
def SEP : List Char := ['[', '/', '/', '/', ']']

/-- Leftmost-match check: the pattern (first argument) starts the list. -/
def leadsWith : List Char → List Char → Bool
  | [], _ => true
  | _ :: _, [] => false
  | p :: ps, c :: cs => p == c && leadsWith ps cs

/-- The separator occurs nowhere in the text (the claim's "key texts do
not contain the separator string"). -/
def sepFree (l : List Char) : Bool :=
  (List.range l.length).all (fun i => !(leadsWith SEP (l.drop i)))

/-- Python `s.split("[///]")` on the character list: leftmost,
non-overlapping matches. -/
def splitSep (l : List Char) : List (List Char) :=
  match l with
  | [] => [[]]
  | c :: rest =>
    if leadsWith SEP (c :: rest) then
      [] :: splitSep ((c :: rest).drop SEP.length)
    else
      match splitSep rest with
      | [] => [[c]]
      | t :: ts => (c :: t) :: ts
termination_by l.length
decreasing_by
  · simp only [List.length_drop, List.length_cons, SEP, List.length]
    omega
  · simp

theorem leadsWith_self_append : ∀ (p x : List Char), leadsWith p (p ++ x) = true := by
  intro p
  induction p with
  | nil => intro x; rfl
  | cons a ps ih =>
    intro x
    show (a == a && leadsWith ps (ps ++ x)) = true
    rw [ih x]
    simp

theorem leadsWith_append_of_le : ∀ (p l x : List Char), p.length ≤ l.length →
    leadsWith p (l ++ x) = leadsWith p l := by
  intro p
  induction p with
  | nil => intro l x _; rfl
  | cons a ps ih =>
    intro l x hl
    cases l with
    | nil => simp at hl
    | cons b ls =>
      show (a == b && leadsWith ps (ls ++ x)) = (a == b && leadsWith ps ls)
      rw [ih ls x (by simp only [List.length_cons] at hl; omega)]

theorem sepFree_tail (c : Char) (rest : List Char)
    (h : sepFree (c :: rest) = true) : sepFree rest = true := by
  rw [sepFree, List.all_eq_true]
  intro i hi
  have hi' := List.mem_range.mp hi
  have := List.all_eq_true.mp h (i + 1)
    (List.mem_range.mpr (by simp only [List.length_cons]; omega))
  simpa using this

theorem sepFree_head (c : Char) (rest : List Char)
    (h : sepFree (c :: rest) = true) : leadsWith SEP (c :: rest) = false := by
  have := List.all_eq_true.mp h 0
    (List.mem_range.mpr (by simp only [List.length_cons]; omega))
  simpa using this

theorem splitSep_of_sepFree : ∀ (l : List Char), sepFree l = true →
    splitSep l = [l] := by
  intro l
  induction l with
  | nil => intro _; rw [splitSep.eq_def]
  | cons c rest ih =>
    intro hfree
    rw [splitSep.eq_def]
    dsimp only
    rw [if_neg (by rw [sepFree_head c rest hfree]; exact Bool.false_ne_true)]
    rw [ih (sepFree_tail c rest hfree)]

/-- The separator cannot straddle the boundary of `o ++ SEP`: `"[///]"`
has no nontrivial self-overlap. -/
theorem sep_no_straddle (o : List Char) (ho : sepFree o = true) (hne : o ≠ [])
    (g : List Char) : leadsWith SEP (o ++ SEP ++ g) = false := by
  have h1 : (('/' : Char) == '[') = false := rfl
  have h2 : (((']') : Char) == '[') = false := rfl
  rcases o with - | ⟨c1, - | ⟨c2, - | ⟨c3, - | ⟨c4, - | ⟨c5, rest⟩⟩⟩⟩⟩
  · exact absurd rfl hne
  · show leadsWith SEP ([c1] ++ SEP ++ g) = false
    simp [SEP, leadsWith, h1]
  · show leadsWith SEP ([c1, c2] ++ SEP ++ g) = false
    simp [SEP, leadsWith, h1]
  · show leadsWith SEP ([c1, c2, c3] ++ SEP ++ g) = false
    simp [SEP, leadsWith, h1]
  · show leadsWith SEP ([c1, c2, c3, c4] ++ SEP ++ g) = false
    simp [SEP, leadsWith, h2]
  · rw [List.append_assoc,
      leadsWith_append_of_le SEP (c1 :: c2 :: c3 :: c4 :: c5 :: rest) (SEP ++ g)
        (by simp [SEP])]
    exact sepFree_head _ _ ho

theorem splitSep_append (g : List Char) (hg : sepFree g = true) :
    ∀ (o : List Char), sepFree o = true → splitSep (o ++ SEP ++ g) = [o, g] := by
  intro o
  induction o with
  | nil =>
    intro _
    show splitSep (SEP ++ g) = [[], g]
    have hsep : SEP ++ g = '[' :: '/' :: '/' :: '/' :: ']' :: g := rfl
    have hlw : leadsWith SEP ('[' :: '/' :: '/' :: '/' :: ']' :: g) = true := by
      rw [← hsep]
      exact leadsWith_self_append SEP g
    rw [hsep, splitSep.eq_def]
    dsimp only
    rw [if_pos hlw]
    show [] :: splitSep g = [[], g]
    rw [splitSep_of_sepFree g hg]
  | cons c o' ih =>
    intro ho
    have hcons : (c :: o') ++ SEP ++ g = c :: (o' ++ SEP ++ g) := by simp
    have hstr : leadsWith SEP (c :: (o' ++ SEP ++ g)) = false := by
      rw [← hcons]
      exact sep_no_straddle (c :: o') ho (by simp) g
    rw [hcons, splitSep.eq_def]
    dsimp only
    rw [if_neg (by rw [hstr]; exact Bool.false_ne_true)]
    rw [ih (sepFree_tail c o' ho)]

/-- `"[///]".join(k)` for a 2-tuple key (line 224). -/
def joinKey (o g : String) : String := o ++ "[///]" ++ g

/-- `k.split("[///]")` (line 234). -/
def splitKeyParts (s : String) : List String :=
  (splitSep s.data).map (fun l => String.mk l)

/-- `tuple(k.split("[///]"))` coerced to the 2-tuple key type.  The source
builds a tuple of whatever arity the split produced; an arity other than 2
can never equal a `(original, generated)` key, and is modelled by a junk
key here. -/
def keyOfParts : List String → String × String
  | [a, b] => (a, b)
  | _ => ("", "")

/-- `v.tolist()` of a 3-plane image (line 224). -/
def imageToLists (img : Image) : List Mat := [img.ent, img.con, img.neu]

/-- `np.array(v)` back from the serialized nested lists (line 234); shapes
other than three planes are never produced by `save_cache`. -/
def listsToImage : List Mat → Image
  | [e, c, n] => ⟨e, c, n⟩
  | _ => zeroImage311

/-- The store written by `save_cache` (lines 223-227). -/
def save_cache_store (c : Cache) : List (String × List Mat) :=
  c.map (fun kv => (joinKey kv.1.1 kv.1.2, imageToLists kv.2))

/-- The cache rebuilt by `load_cache` from a parsed store (line 234). -/
def load_cache_store (entries : List (String × List Mat)) : Cache :=
  entries.map (fun kv => (keyOfParts (splitKeyParts kv.1), listsToImage kv.2))

theorem splitKeyParts_joinKey (o g : String) (ho : sepFree o.data = true)
    (hg : sepFree g.data = true) : splitKeyParts (joinKey o g) = [o, g] := by
  unfold splitKeyParts joinKey
  have hdata : (o ++ "[///]" ++ g).data = o.data ++ SEP ++ g.data := by
    rw [String.data_append, String.data_append]
    rfl
  rw [hdata, splitSep_append g.data hg o.data ho]
  rfl

/-- The serialization round trip is the identity on caches whose key texts
avoid the separator. -/
theorem store_round_trip (c : Cache)
    (hkeys : ∀ kv ∈ c, sepFree kv.1.1.data = true ∧ sepFree kv.1.2.data = true) :
    load_cache_store (save_cache_store c) = c := by
  unfold load_cache_store save_cache_store
  rw [List.map_map]
  have hid : ∀ kv ∈ c,
      ((fun kv' => (keyOfParts (splitKeyParts kv'.1), listsToImage kv'.2)) ∘
        (fun kv' => (joinKey kv'.1.1 kv'.1.2, imageToLists kv'.2))) kv = kv := by
    intro kv hkv
    obtain ⟨h1, h2⟩ := hkeys kv hkv
    show (keyOfParts (splitKeyParts (joinKey kv.1.1 kv.1.2)),
      listsToImage (imageToLists kv.2)) = kv
    rw [splitKeyParts_joinKey kv.1.1 kv.1.2 h1 h2]
    rfl
  rw [List.map_congr_left hid]
  simp

/-! ## The on-disk cache store (`get_cache_file` / `save_cache` / `load_cache`) -/

/-- `os.path.join(self.cache_folder, "cache_%s_%s.json" % (model_name, granularity))`. -/
def cacheFileName (s : Imager) : String :=
  "./datasets/summac_cache/" ++ "cache_" ++ s.model_name ++ "_" ++ s.granularity
    ++ ".json"

/-- The file-system state visible to the cache code: whether the cache
folder exists, and each path's content — `none` missing, `some none`
present but not parseable as JSON (an empty file), `some (some entries)`
a parsed JSON store. -/
structure DiskState where
  folder_exists : Bool
  files : String → Option (Option (List (String × List Mat)))

/-- The side effect of `get_cache_file` (lines 213-221): when the cache
folder is missing it is created, and if the cache file is then also
missing an *empty* file — not valid JSON — is created. -/
def get_cache_file_effect (d : DiskState) (s : Imager) : DiskState :=
  if d.folder_exists then d
  else
    { folder_exists := true,
      files := fun p =>
        if p = cacheFileName s then
          match d.files (cacheFileName s) with
          | none => some none
          | some c => some c
        else d.files p }

/-- `SummaCImager.save_cache` (lines 223-227): serialize the cache and
write it to the cache file. -/
def save_cache (d : DiskState) (s : Imager) : DiskState :=
  let d' := get_cache_file_effect d s
  { d' with files := fun p =>
      if p = cacheFileName s then some (some (save_cache_store s.cache))
      else d'.files p }

/-- `SummaCImager.load_cache` (lines 229-234): a missing file is a no-op;
a present file is parsed with `json.load`, which raises on unparseable
content (modelled by `Except.error`); a parsed store replaces the
in-memory cache. -/
def load_cache (d : DiskState) (s : Imager) : DiskState × Except String Imager :=
  let d' := get_cache_file_effect d s
  match d'.files (cacheFileName s) with
  | none => (d', Except.ok s)
  | some none => (d', Except.error "JSONDecodeError")
  | some (some entries) => (d', Except.ok { s with cache := load_cache_store entries })

theorem get_cache_file_effect_folder (d : DiskState) (s : Imager) :
    (get_cache_file_effect d s).folder_exists = true := by
  unfold get_cache_file_effect
  by_cases h : d.folder_exists = true
  · rw [if_pos h]
    exact h
  · rw [if_neg h]

/-- C5: saving a cache whose key texts avoid the separator and loading it
into a fresh imager with the same cache-file name reproduces the cache
exactly. -/
theorem c5_theorem (d : DiskState) (s s₂ : Imager)
    (hname : cacheFileName s₂ = cacheFileName s)
    (hkeys : ∀ kv ∈ s.cache, sepFree kv.1.1.data = true ∧ sepFree kv.1.2.data = true) :
    (load_cache (save_cache d s) s₂).2
      = Except.ok { s₂ with cache := s.cache } := by
  unfold load_cache
  have heff : get_cache_file_effect (save_cache d s) s₂ = save_cache d s := by
    unfold get_cache_file_effect
    rw [if_pos]
    show (save_cache d s).folder_exists = true
    unfold save_cache
    exact get_cache_file_effect_folder d s
  have hfile : (save_cache d s).files (cacheFileName s₂)
      = some (some (save_cache_store s.cache)) := by
    unfold save_cache
    dsimp only
    rw [hname, if_pos rfl]
  rw [heff]
  dsimp only
  rw [hfile]
  dsimp only
  rw [store_round_trip s.cache hkeys]

/-- C5 witness: the round trip evaluated at a concrete one-entry cache. -/
theorem c5_witness :
    (load_cache (save_cache ⟨true, fun _ => none⟩
        { freshImager with cache := [(("a", "b"), twoRowImage)] })
      { freshImager with cache := [] }).2
      = Except.ok { freshImager with cache := [(("a", "b"), twoRowImage)] } :=
  c5_theorem ⟨true, fun _ => none⟩
    { freshImager with cache := [(("a", "b"), twoRowImage)] }
    { freshImager with cache := [] } rfl (by decide)

/-! ## Claim C9: `load_cache` with a missing store -/

/-- C9 evaluation: on a disk with neither folder nor file, `load_cache`
*raises* (`get_cache_file` creates an empty, invalid-JSON file that
`json.load` then chokes on), contradicting the claim; with the folder
present and only the file missing, it is the no-op the claim describes. -/
theorem c9_theorem :
    (load_cache ⟨false, fun _ => none⟩ freshImager).2
        = Except.error "JSONDecodeError"
    ∧ (load_cache ⟨true, fun _ => none⟩ freshImager).2 = Except.ok freshImager := by
  constructor
  · unfold load_cache get_cache_file_effect
    simp
  · rfl

/-! ## Claim C8: the `2sents` sliding window -/

/-- C8, counterexample: with two filtered sentences, `split_2sents` does
not produce the single two-sentence window the claim describes — the
comprehension ranges over `range(len(sentences))`, so a final
single-sentence unit is appended. -/
theorem c8_counterexample :
    split_2sents (fun _ => ["AAAAAAAAAAAA", "BBBBBBBBBBBB"]) "t"
      ≠ ["AAAAAAAAAAAA BBBBBBBBBBBB"] := by
  decide

/-- `l[i:i+2]` as the two elements at `i` and `i+1`. -/
theorem take2_drop (l : List α) (d : α) :
    ∀ (i : Nat), i + 1 < l.length →
      (l.drop i).take 2 = [l.getD i d, l.getD (i + 1) d] := by
  induction l with
  | nil => intro i h; simp at h
  | cons a t ih =>
    intro i h
    cases i with
    | zero =>
      cases t with
      | nil => simp at h
      | cons b t2 => rfl
    | succ i' =>
      show (t.drop i').take 2 = [t.getD i' d, t.getD (i' + 1) d]
      exact ih i' (by simp only [List.length_cons] at h; omega)

/-- `l[len-1:len+1]` is the last element alone. -/
theorem take2_drop_last (l : List α) (d : α) :
    l ≠ [] → (l.drop (l.length - 1)).take 2 = [l.getD (l.length - 1) d] := by
  induction l with
  | nil => intro h; exact absurd rfl h
  | cons a t ih =>
    intro _
    cases t with
    | nil => rfl
    | cons b t2 =>
      exact ih (by simp)

theorem range_getD (n i : Nat) (h : i < n) : (List.range n).getD i 0 = i := by
  rw [List.getD_eq_getElem _ _ (by simpa using h)]
  simp

/-- C8 (amended): `split_2sents` length-filters the tokenized sentences
and produces one unit per *filtered sentence*: unit `i` with `i + 1 < n`
is the join of filtered sentences `i` and `i + 1` (consecutive units
overlapping by one sentence), and the final unit is the last filtered
sentence alone. -/
theorem c8_theorem (tok : Tok) (text : String) :
    (split_2sents tok text).length
        = ((tok text).filter (fun s => s.length > 10)).length
    ∧ (∀ i, i + 1 < ((tok text).filter (fun s => s.length > 10)).length →
        (split_2sents tok text).getD i ""
          = ((tok text).filter (fun s => s.length > 10)).getD i "" ++ " "
            ++ ((tok text).filter (fun s => s.length > 10)).getD (i + 1) "")
    ∧ (((tok text).filter (fun s => s.length > 10)) ≠ [] →
        (split_2sents tok text).getD
            (((tok text).filter (fun s => s.length > 10)).length - 1) ""
          = ((tok text).filter (fun s => s.length > 10)).getD
              (((tok text).filter (fun s => s.length > 10)).length - 1) "") := by
  refine ⟨by simp [split_2sents], ?_, ?_⟩
  · intro i hi
    unfold split_2sents
    rw [list_getD_map _ _ i 0 _ (by simp only [List.length_range]; omega),
      range_getD _ _ (by omega),
      take2_drop ((tok text).filter (fun s => s.length > 10)) "" i hi]
    rfl
  · intro hne
    have hlen : 0 < ((tok text).filter (fun s => s.length > 10)).length :=
      List.length_pos.mpr hne
    unfold split_2sents
    rw [list_getD_map _ _ _ 0 _ (by simp only [List.length_range]; omega),
      range_getD _ _ (by omega),
      take2_drop_last ((tok text).filter (fun s => s.length > 10)) "" hne]
    rfl

/-- C8 witness: the amended description evaluated on two concrete
sentences. -/
theorem c8_witness :
    (split_2sents (fun _ => ["AAAAAAAAAAAA", "BBBBBBBBBBBB"]) "t").length = 2
    ∧ (split_2sents (fun _ => ["AAAAAAAAAAAA", "BBBBBBBBBBBB"]) "t").getD 0 ""
        = "AAAAAAAAAAAA" ++ " " ++ "BBBBBBBBBBBB" := by
  have h := c8_theorem (fun _ => ["AAAAAAAAAAAA", "BBBBBBBBBBBB"]) "t"
  constructor
  · rw [h.1]
    decide
  · rw [h.2.1 0 (by decide)]
    decide

end SummaC
